import Mathlib

/-!
Verification of the sentence-deduplication / annotation-reuse / scene-grouping
pipeline of the game-learning repository.

The Python sources under `src/` are shallowly embedded: strings become
`List Char`, SQLite tables become Lean lists of records, the float times of
the transcription segments become rationals, and the md5 sentence fingerprint
is idealized as the (text, video-filename, rounded start time) triple that is
fed to md5 (collisions of md5 itself and of the `_`-join are ignored).
Python's `\w` and `\s` character classes are taken at their ASCII meaning
(the corpus processed by the repository is ASCII transcription text).
-/

namespace Game

/-! ## Text normalizer (`video_processor._normalize_sentence_for_comparison`) -/
/-- Python regex `\w` on ASCII: letters, digits and underscore. -/
def isWordChar (c : Char) : Bool := c.isAlphanum || c = '_'

/-- Accumulator worker for Python `str.split()` (split on whitespace runs,
dropping empty pieces).  `cur` is the current word, reversed. -/
def wordsAux : List Char → List Char → List (List Char)
  | cur, [] => if cur.isEmpty then [] else [cur.reverse]
  | cur, c :: cs =>
    if c.isWhitespace then
      if cur.isEmpty then wordsAux [] cs
      else cur.reverse :: wordsAux [] cs
    else wordsAux (c :: cur) cs

/-- Python `str.split()` with no argument. -/
def pyWords (s : List Char) : List (List Char) := wordsAux [] s

/-- Python `' '.join(ws)`. -/
def unwords : List (List Char) → List Char
  | [] => []
  | [w] => w
  | w :: ws => w ++ ' ' :: unwords ws

/-- Python `re.sub(r'\s+', ' ', s)`: every maximal whitespace run becomes one
space.  The flag records whether the previous character was whitespace. -/
def collapseAux : Bool → List Char → List Char
  | _, [] => []
  | prev, c :: cs =>
    if c.isWhitespace then
      if prev then collapseAux true cs else ' ' :: collapseAux true cs
    else c :: collapseAux false cs

/-- Python `re.sub(r'^[^\w]+|[^\w]+$', '', s)`: strip the leading and the
trailing run of non-word characters. -/
def stripBoundary (s : List Char) : List Char :=
  ((s.dropWhile fun c => !isWordChar c).reverse.dropWhile fun c => !isWordChar c).reverse

/-- Python `str.strip()`: remove leading and trailing whitespace. -/
def pyStrip (s : List Char) : List Char :=
  ((s.dropWhile Char.isWhitespace).reverse.dropWhile Char.isWhitespace).reverse

/-- The filler stop-list of `_normalize_sentence_for_comparison` (the entry
`"you know"` contains a space and can never match a single token, exactly as
in the source). -/
def fillerWords : List (List Char) :=
  ["um".data, "uh".data, "er".data, "ah".data, "like".data, "you know".data]

/-- `VideoProcessor._normalize_sentence_for_comparison`, step for step:
lower-case, collapse/strip whitespace, strip boundary punctuation, collapse
whitespace runs, drop filler tokens, join and strip. -/
def normalizeText (text : List Char) : List Char :=
  let n1 := text.map Char.toLower
  let n2 := unwords (pyWords n1)
  let n3 := stripBoundary n2
  let n4 := collapseAux false n3
  let ws := (pyWords n4).filter fun w => decide (w ∉ fillerWords)
  pyStrip (unwords ws)

/-- String-level wrapper of the normalizer. -/
def normalize_sentence_for_comparison (s : String) : String :=
  ⟨normalizeText s.data⟩

/-! ## Lemmas about the normalizer pipeline -/
/-- Character is not whitespace. -/
def nonWS (c : Char) : Bool := !c.isWhitespace

/-- A well-formed token: nonempty and whitespace-free (every `str.split()`
result is of this shape). -/
def goodWord (w : List Char) : Prop := w ≠ [] ∧ w.all nonWS

/-- All tokens of a list are well-formed. -/
def goodWords (ws : List (List Char)) : Prop := ∀ w ∈ ws, goodWord w

/-- The token list computed by the normalizer just before the final join. -/
def normCore (text : List Char) : List (List Char) :=
  (pyWords (collapseAux false (stripBoundary (unwords (pyWords
    (text.map Char.toLower)))))).filter fun w => decide (w ∉ fillerWords)

/-! ## Sentence splitter (`video_processor.split_text_into_sentences`,
`video_processor._split_text_simple`) -/
/-- A transcription segment row (`segments` table / Whisper output); times are
modelled as rationals. -/
structure Segment where
  text : List Char
  start_time : ℚ
  end_time : ℚ
  confidence : ℚ
deriving DecidableEq, Repr

/-- A sentence produced by the splitter. -/
structure Sentence where
  text : List Char
  start_time : ℚ
  end_time : ℚ
  confidence : ℚ
deriving DecidableEq, Repr

/-- A sentence-terminal character, the class `[.!?]` of the splitter. -/
def isDelim (c : Char) : Bool := c = '.' || c = '!' || c = '?'

mutual

/-- `re.split(r'([.!?]+)', text)`: scanning inside a text chunk (`acc` holds
the chunk, reversed). -/
def reSplitText (acc : List Char) : List Char → List (List Char)
  | [] => [acc.reverse]
  | c :: cs =>
    if isDelim c then acc.reverse :: reSplitDelim [c] cs
    else reSplitText (c :: acc) cs

/-- `re.split(r'([.!?]+)', text)`: scanning inside a delimiter run. -/
def reSplitDelim (run : List Char) : List Char → List (List Char)
  | [] => [run.reverse, []]
  | c :: cs =>
    if isDelim c then reSplitDelim (c :: run) cs
    else run.reverse :: reSplitText [c] cs

end

/-- `re.split(r'([.!?]+)', text)`: text chunks alternating with the captured
maximal delimiter runs; first and last element are text chunks (possibly
empty). -/
def reSplit (s : List Char) : List (List Char) := reSplitText [] s

/-- Truthiness of `part.strip()`: the string has a non-whitespace character. -/
def hasContent (s : List Char) : Bool := s.any fun c => !c.isWhitespace

/-- `re.match(r'([.!?]+)', part)`: the part starts with a delimiter. -/
def startsDelim : List Char → Bool
  | [] => false
  | c :: _ => isDelim c

/-- The interpolated sentence end time: `sentence_start + (end_time -
sentence_start) * ((i+1)/len(parts))`. -/
def interpEnd (segEnd curStart : ℚ) (i n : ℕ) : ℚ :=
  curStart + (segEnd - curStart) * (((i : ℚ) + 1) / (n : ℚ))

/-- Loop state of the splitter: current accumulated sentence, its start time,
and the sentences emitted so far. -/
structure EmitState where
  cur : List Char
  curStart : ℚ
  out : List Sentence
deriving DecidableEq, Repr

/-- The part-loop of `_split_text_simple` for one segment: `n` is
`len(parts)`, `i` the enumeration index.  On a delimiter part the sentence is
emitted with end time `sentence_start + (end_time - sentence_start) *
((i+1)/len(parts))` clamped to the segment end, and the next sentence starts
at the unclamped interpolated value. -/
def emitLoop (segEnd conf : ℚ) (n : ℕ) : ℕ → List (List Char) → EmitState → EmitState
  | _, [], st => st
  | i, part :: rest, st =>
    if hasContent part then
      let cur2 := st.cur ++ part
      if startsDelim part then
        if hasContent cur2 then
          let send := interpEnd segEnd st.curStart i n
          emitLoop segEnd conf n (i + 1) rest
            ⟨[], send, st.out ++ [⟨pyStrip cur2, st.curStart, min send segEnd, conf⟩]⟩
        else emitLoop segEnd conf n (i + 1) rest ⟨cur2, st.curStart, st.out⟩
      else emitLoop segEnd conf n (i + 1) rest ⟨cur2, st.curStart, st.out⟩
    else emitLoop segEnd conf n (i + 1) rest st

/-- Final loop state of `_split_text_simple` on one segment. -/
def emitSegFull (seg : Segment) : EmitState :=
  let parts := reSplit (pyStrip seg.text)
  emitLoop seg.end_time seg.confidence parts.length 0 parts ⟨[], seg.start_time, []⟩

/-- All sentences emitted by `_split_text_simple` for one segment, including
the trailing clause without terminal punctuation (emitted with the segment
end as its end time), before the final length filter. -/
def emitSeg (seg : Segment) : List Sentence :=
  let st := emitSegFull seg
  if hasContent st.cur then
    st.out ++ [⟨pyStrip st.cur, st.curStart, seg.end_time, seg.confidence⟩]
  else st.out

/-- `re.match(r'^[.!?\s]+$', s)` truthiness: nonempty and made of terminal
punctuation and whitespace only. -/
def onlyPunct (s : List Char) : Bool :=
  !s.isEmpty && s.all fun c => isDelim c || c.isWhitespace

/-- `VideoProcessor._split_text_simple`: split every segment, then drop
sentences whose stripped text is shorter than 10 characters or consists of
punctuation/whitespace only. -/
def split_text_simple (segs : List Segment) : List Sentence :=
  ((segs.map emitSeg).flatten).filter fun s =>
    decide ((pyStrip s.text).length ≥ 10) && !(onlyPunct s.text)

/-- Loop state of the deduplicating splitter: additionally the set of
normalized sentences seen so far (`seen_sentences`). -/
structure DedupState where
  cur : List Char
  curStart : ℚ
  seen : List (List Char)
  out : List Sentence
deriving DecidableEq, Repr

/-- The part-loop of `split_text_into_sentences` for one segment: identical
to `emitLoop` except that a sentence whose normalized text was already seen
is skipped (the timestamps still advance). -/
def dedupLoop (segEnd conf : ℚ) (n : ℕ) : ℕ → List (List Char) → DedupState → DedupState
  | _, [], st => st
  | i, part :: rest, st =>
    if hasContent part then
      let cur2 := st.cur ++ part
      if startsDelim part then
        if hasContent cur2 then
          let send := interpEnd segEnd st.curStart i n
          let norm := normalizeText (pyStrip cur2)
          if norm ∈ st.seen then
            dedupLoop segEnd conf n (i + 1) rest ⟨[], send, st.seen, st.out⟩
          else
            dedupLoop segEnd conf n (i + 1) rest
              ⟨[], send, norm :: st.seen,
                st.out ++ [⟨pyStrip cur2, st.curStart, min send segEnd, conf⟩]⟩
        else dedupLoop segEnd conf n (i + 1) rest ⟨cur2, st.curStart, st.seen, st.out⟩
      else dedupLoop segEnd conf n (i + 1) rest ⟨cur2, st.curStart, st.seen, st.out⟩
    else dedupLoop segEnd conf n (i + 1) rest st

/-- One segment of `split_text_into_sentences`: run the deduplicating
part-loop, then emit the trailing clause (with the segment end time) if its
normalized text is new.  The `seen`/`out` pair is threaded across segments. -/
def processSegDedup (seg : Segment) (acc : List (List Char) × List Sentence) :
    List (List Char) × List Sentence :=
  let parts := reSplit (pyStrip seg.text)
  let st := dedupLoop seg.end_time seg.confidence parts.length 0 parts
    ⟨[], seg.start_time, acc.1, acc.2⟩
  if hasContent st.cur then
    let norm := normalizeText (pyStrip st.cur)
    if norm ∈ st.seen then (st.seen, st.out)
    else (norm :: st.seen,
      st.out ++ [⟨pyStrip st.cur, st.curStart, seg.end_time, seg.confidence⟩])
  else (st.seen, st.out)

/-- `VideoProcessor.split_text_into_sentences`: split with in-pass local
deduplication by normalized text, then apply the final length filter. -/
def split_text_into_sentences (segs : List Segment) : List Sentence :=
  let fin := segs.foldl (fun acc seg => processSegDedup seg acc) ([], [])
  fin.2.filter fun s =>
    decide ((pyStrip s.text).length ≥ 10) && !(onlyPunct (pyStrip s.text))

/-- Specification-side first-occurrence filter: keep a sentence iff its
normalized text has not occurred before; returns the kept sentences and the
final seen-set (spec words: "set-membership scan in emission order, first
occurrence wins"). -/
def dedupSpec (seen : List (List Char)) : List Sentence → List Sentence × List (List Char)
  | [] => ([], seen)
  | s :: rest =>
    if normalizeText s.text ∈ seen then dedupSpec seen rest
    else
      let r := dedupSpec (normalizeText s.text :: seen) rest
      (s :: r.1, r.2)

/-! ## Timestamp invariants of the splitter -/
/-- `chainFrom a out b`: the sentences of `out` are consecutive — the first
starts at `a`, each next starts at the previous end, the last ends at `b`
(`a = b` when `out` is empty). -/
def chainFrom : ℚ → List Sentence → ℚ → Prop
  | a, [], b => a = b
  | a, s :: rest, b => s.start_time = a ∧ chainFrom s.end_time rest b

/-! ## Annotation store (`data_manager.py`) -/
/-- Rounding standing for the `"%.2f"` formatting of the start time inside
`_get_sentence_hash` (idealized as round-half-up on rationals). -/
def round2 (q : ℚ) : ℚ := (⌊q * 100 + 1/2⌋ : ℤ) / 100

/-- The md5 fingerprint of `DataManager._get_sentence_hash`, idealized as the
injective triple `(sentence_text, video_filename, start_time
rounded to two decimals)` that is formatted and hashed in the source. -/
def sentence_hash (sentence_text video_filename : List Char) (start_time : ℚ) :
    List Char × List Char × ℚ :=
  (sentence_text, video_filename, round2 start_time)

/-- A row of the `ai_responses` table. -/
structure AiRow where
  id : ℕ
  sentence_hash : List Char × List Char × ℚ
  sentence_text : List Char
  video_filename : List Char
  start_time : ℚ
  end_time : ℚ
  response_type : List Char
  ai_response : List Char
  ai_client : List Char
  custom_prompt : Option (List Char)
  is_edited : Bool
  edited_text : Option (List Char)
  version : ℕ
deriving DecidableEq, Repr

/-- The `ai_responses` table plus the autoincrement counter. -/
structure AiDB where
  rows : List AiRow
  nextId : ℕ
deriving DecidableEq, Repr

/-- The SQL key used by every `ai_responses` query:
`sentence_hash = ? AND response_type = ? AND (custom_prompt = ? OR
(custom_prompt IS NULL AND ? IS NULL))`. -/
def rowKeyMatch (h : List Char × List Char × ℚ) (rt : List Char)
    (cp : Option (List Char)) (r : AiRow) : Bool :=
  decide (r.sentence_hash = h) && decide (r.response_type = rt)
    && decide (r.custom_prompt = cp)

/-- `DataManager.save_ai_response`: update the first row with the same
(fingerprint, type, custom prompt) in place — body replaced, version
incremented, edit state cleared — or insert a fresh row with version 1.
Returns the new table and the row id. -/
def updRow (ai_response ai_client : List Char) (version : ℕ) (x : AiRow) : AiRow :=
  { x with
      ai_response := ai_response, ai_client := ai_client,
      version := version, is_edited := false, edited_text := none }

/-- The freshly inserted `ai_responses` row (all column defaults applied). -/
def newAiRow (id : ℕ) (sentence_text video_filename : List Char)
    (start_time end_time : ℚ) (response_type ai_response ai_client : List Char)
    (custom_prompt : Option (List Char)) : AiRow :=
  { id := id, sentence_hash := sentence_hash sentence_text video_filename start_time,
    sentence_text := sentence_text, video_filename := video_filename,
    start_time := start_time, end_time := end_time,
    response_type := response_type, ai_response := ai_response,
    ai_client := ai_client, custom_prompt := custom_prompt,
    is_edited := false, edited_text := none, version := 1 }

def save_ai_response (db : AiDB) (sentence_text video_filename : List Char)
    (start_time end_time : ℚ) (response_type ai_response ai_client : List Char)
    (custom_prompt : Option (List Char)) : AiDB × ℕ :=
  let h := sentence_hash sentence_text video_filename start_time
  match db.rows.find? (rowKeyMatch h response_type custom_prompt) with
  | some r =>
    (⟨db.rows.map fun x =>
        if x.id = r.id then updRow ai_response ai_client (r.version + 1) x
        else x,
      db.nextId⟩, r.id)
  | none =>
    (⟨db.rows ++ [newAiRow db.nextId sentence_text video_filename start_time
        end_time response_type ai_response ai_client custom_prompt],
      db.nextId + 1⟩, db.nextId)

/-- `DataManager.get_ai_response`: among the rows with the same key, the one
with maximal version (`ORDER BY version DESC LIMIT 1`; first such row on
ties). -/
def get_ai_response (db : AiDB) (sentence_text video_filename : List Char)
    (start_time : ℚ) (response_type : List Char)
    (custom_prompt : Option (List Char)) : Option AiRow :=
  let h := sentence_hash sentence_text video_filename start_time
  (db.rows.filter (rowKeyMatch h response_type custom_prompt)).foldl
    (fun acc r =>
      match acc with
      | none => some r
      | some a => if r.version > a.version then some r else acc) none

/-- `DataManager.update_ai_response`: mark every row with the key as edited
and store the edited text; report whether any row was touched. -/
def editRow (edited_text : List Char) (x : AiRow) : AiRow :=
  { x with is_edited := true, edited_text := some edited_text }

def update_ai_response (db : AiDB) (sentence_text video_filename : List Char)
    (start_time : ℚ) (response_type : List Char) (edited_text : List Char)
    (custom_prompt : Option (List Char)) : AiDB × Bool :=
  let h := sentence_hash sentence_text video_filename start_time
  (⟨db.rows.map fun x =>
      if rowKeyMatch h response_type custom_prompt x then editRow edited_text x
      else x,
    db.nextId⟩,
   db.rows.any (rowKeyMatch h response_type custom_prompt))

/-- The full deduplication key of an `ai_responses` row. -/
def rowFullKey (r : AiRow) : (List Char × List Char × ℚ) × List Char × Option (List Char) :=
  (r.sentence_hash, r.response_type, r.custom_prompt)

/-- Well-formedness of the annotation store: distinct row ids, ids below the
autoincrement counter, and at most one row per (fingerprint, response type,
custom prompt). -/
def AiWF (db : AiDB) : Prop :=
  (db.rows.map AiRow.id).Nodup
  ∧ (∀ r ∈ db.rows, r.id < db.nextId)
  ∧ db.rows.Pairwise fun a b => rowFullKey a ≠ rowFullKey b

/-! ## Corpus index and cross-video reuse (`video_processor.py`,
`database_manager.py`) -/
/-- A row of the `videos` table as returned by
`DatabaseManager.get_all_videos` (which selects every video, ordered by
`created_at DESC`; the list order of `CorpusDB.videos` is that enumeration
order). -/
structure Video where
  id : ℕ
  filename : List Char
  status : List Char
deriving DecidableEq, Repr

/-- The relational state the corpus scan reads: the `videos` table, the
stored transcription segments per video id (`get_video_segments`), the
per-video processing state flag of `video_processing_state`
(`processing_completed`, keyed by filename), and the `ai_responses` table. -/
structure CorpusDB where
  videos : List Video
  segmentsOf : List (ℕ × List Segment)
  completedState : List (List Char × Bool)
  ai : AiDB
deriving DecidableEq, Repr

/-- `DatabaseManager.get_video_segments` (segments of a video, in stored
order). -/
def get_video_segments (db : CorpusDB) (video_id : ℕ) : List Segment :=
  match db.segmentsOf.find? fun p => decide (p.1 = video_id) with
  | some p => p.2
  | none => []

/-- `VideoProcessor._count_ai_responses_for_sentence`: number of cached
`translation`/`grammar` responses for the exact (text, video, start). -/
def count_ai_responses_for_sentence (adb : AiDB) (sentence_text video_filename : List Char)
    (start_time : ℚ) : ℕ :=
  (if (get_ai_response adb sentence_text video_filename start_time
      "translation".data none).isSome then 1 else 0)
  + (if (get_ai_response adb sentence_text video_filename start_time
      "grammar".data none).isSome then 1 else 0)

/-- A value of the corpus index map
(`sentences_map[normalized_text] = ...`). -/
structure CorpusEntry where
  video_filename : List Char
  ai_count : ℕ
  original_text : List Char
  start_time : ℚ
deriving DecidableEq, Repr

/-- The inner loop of `_get_existing_sentences_map` for one video: re-split
its stored segments with `_split_text_simple` and record each unseen
normalized text. -/
def mapInsertVideo (db : CorpusDB) (v : Video)
    (m : List (List Char × CorpusEntry)) : List (List Char × CorpusEntry) :=
  (split_text_simple (get_video_segments db v.id)).foldl
    (fun m s =>
      let key := normalizeText s.text
      if (m.find? fun p => decide (p.1 = key)).isSome then m
      else
        m ++ [(key,
          ⟨v.filename,
           count_ai_responses_for_sentence db.ai s.text v.filename s.start_time,
           s.text, s.start_time⟩)]) m

/-- `VideoProcessor._get_existing_sentences_map`: iterate over **all** videos
returned by `get_all_videos` (first video wins each normalized key). -/
def get_existing_sentences_map (db : CorpusDB) : List (List Char × CorpusEntry) :=
  db.videos.foldl (fun m v => mapInsertVideo db v m) []

/-- A sentence enhanced by `deduplicate_with_existing_sentences`. -/
structure ESentence where
  s : Sentence
  has_existing_ai : Bool
  existing_ai_source : Option (List Char)
  ai_responses_count : ℕ
deriving DecidableEq, Repr

/-- `VideoProcessor.deduplicate_with_existing_sentences`: tag every new
sentence with the corpus entry of its normalized text, when one exists. -/
def deduplicate_with_existing_sentences (db : CorpusDB)
    (new_sentences : List Sentence) : List ESentence :=
  let m := get_existing_sentences_map db
  new_sentences.map fun s =>
    match m.find? fun p => decide (p.1 = normalizeText s.text) with
    | some p => ⟨s, true, some p.2.video_filename, p.2.ai_count⟩
    | none => ⟨s, false, none, 0⟩

/-- `VideoProcessor._find_original_sentence`: re-derive the source video's
sentences and return the first with the same normalized text. -/
def find_original_sentence (db : CorpusDB) (sentence_text source_video : List Char) :
    Option Sentence :=
  match db.videos.find? fun v => decide (v.filename = source_video) with
  | none => none
  | some v =>
    (split_text_simple (get_video_segments db v.id)).find? fun t =>
      decide (normalizeText t.text = normalizeText sentence_text)

/-- One iteration of `copy_ai_responses_for_duplicates`: for a flagged
duplicate with cached annotations, copy the source sentence's `translation`
and `grammar` rows (when present) as fresh rows keyed by the target video and
the new timestamps. -/
def copyForSentence (db : CorpusDB) (target_video_filename : List Char)
    (adb : AiDB) (es : ESentence) : AiDB :=
  if es.has_existing_ai && decide (es.ai_responses_count > 0) then
    match es.existing_ai_source with
    | none => adb
    | some source_video =>
      match find_original_sentence db es.s.text source_video with
      | none => adb
      | some orig =>
        let adb1 :=
          match get_ai_response adb orig.text source_video orig.start_time
              "translation".data none with
          | some tr =>
            (save_ai_response adb es.s.text target_video_filename
              es.s.start_time es.s.end_time "translation".data
              tr.ai_response tr.ai_client none).1
          | none => adb
        match get_ai_response adb1 orig.text source_video orig.start_time
            "grammar".data none with
        | some gr =>
          (save_ai_response adb1 es.s.text target_video_filename
            es.s.start_time es.s.end_time "grammar".data
            gr.ai_response gr.ai_client none).1
        | none => adb1
  else adb

/-- `VideoProcessor.copy_ai_responses_for_duplicates` over the whole enhanced
sentence list, threading the annotation store. -/
def copy_ai_responses_for_duplicates (db : CorpusDB) (enhanced : List ESentence)
    (target_video_filename : List Char) : AiDB :=
  enhanced.foldl (copyForSentence db target_video_filename) db.ai

/-! ## Scene grouper (`enhanced_video_processor.SmartSegmentGrouper`) -/
/-- A scene produced by `SmartSegmentGrouper._create_group` (the `group_id`
string `"start_end"` is carried as the underlying pair of times). -/
structure Group where
  group_start_time : ℚ
  group_end_time : ℚ
  group_duration : ℚ
  segments_count : ℕ
  combined_text : List Char
  word_count : ℕ
  avg_confidence : ℚ
  segments : List Segment
  group_id : ℚ × ℚ
  pause_before : ℚ
deriving DecidableEq, Repr

/-- `SmartSegmentGrouper._create_group`: `None` for an empty list or when
`last end - start < min_group_duration`, otherwise the aggregated scene. -/
def create_group (min_group_duration : ℚ) : List Segment → ℚ → Option Group
  | [], _ => none
  | s0 :: rest, start_time =>
    let segs := s0 :: rest
    let end_time := (segs.getLast (List.cons_ne_nil s0 rest)).end_time
    let duration := end_time - start_time
    if duration < min_group_duration then none
    else
      let combined := unwords (pyWords (unwords (segs.map fun s => pyStrip s.text)))
      some
        { group_start_time := start_time, group_end_time := end_time,
          group_duration := duration, segments_count := segs.length,
          combined_text := combined, word_count := (pyWords combined).length,
          avg_confidence := (segs.map Segment.confidence).sum / (segs.length : ℚ),
          segments := segs, group_id := (start_time, end_time),
          pause_before := if segs.length > 1 then s0.start_time - start_time else 0 }

/-- The loop of `group_segments_by_silence`: `prev` is the previously
iterated segment (`segments[i-1]`), `curGroup`/`curStart` the open scene. -/
def gsLoop (silence_threshold min_group_duration : ℚ) :
    Segment → List Segment → ℚ → List Segment → List Group
  | _, curGroup, curStart, [] =>
    (match create_group min_group_duration curGroup curStart with
     | some g => [g]
     | none => [])
  | prev, curGroup, curStart, seg :: rest =>
    if seg.start_time - prev.end_time ≥ silence_threshold then
      (match create_group min_group_duration curGroup curStart with
       | some g => [g]
       | none => [])
        ++ gsLoop silence_threshold min_group_duration seg [seg] seg.start_time rest
    else
      gsLoop silence_threshold min_group_duration seg (curGroup ++ [seg]) curStart rest

/-- `SmartSegmentGrouper.group_segments_by_silence`: close the running scene
at every gap of at least `silence_threshold`, always closing (and
min-duration-checking) the final scene. -/
def group_segments_by_silence (silence_threshold min_group_duration : ℚ) :
    List Segment → List Group
  | [] => []
  | s0 :: rest =>
    gsLoop silence_threshold min_group_duration s0 [s0] s0.start_time rest

/-- Specification-side partition of the segment stream into the maximal runs
delimited by silences of at least the threshold (spec words of §4.7). -/
def silenceRunsLoop (silence_threshold : ℚ) :
    Segment → List Segment → List Segment → List (List Segment)
  | _, cur, [] => [cur]
  | prev, cur, seg :: rest =>
    if seg.start_time - prev.end_time ≥ silence_threshold then
      cur :: silenceRunsLoop silence_threshold seg [seg] rest
    else
      silenceRunsLoop silence_threshold seg (cur ++ [seg]) rest

/-- Specification-side run partition of a segment list. -/
def silenceRuns (silence_threshold : ℚ) : List Segment → List (List Segment)
  | [] => []
  | s0 :: rest => silenceRunsLoop silence_threshold s0 [s0] rest

/-! ## Frame extraction (`enhanced_video_processor.FrameExtractor`) -/
/-- Python `int()` truncation toward zero on a rational. -/
def ratTruncZ (q : ℚ) : ℤ := if q < 0 then -⌊-q⌋ else ⌊q⌋

/-- The evenly spaced frame times of `extract_key_frames`: midpoint for one
frame, otherwise `start + step * (i+1)` with `step = duration / (k+1)`. -/
def frame_times (start duration : ℚ) (k : ℕ) : List ℚ :=
  if k = 1 then [start + duration / 2]
  else (List.range k).map fun i => start + duration / ((k : ℚ) + 1) * ((i : ℚ) + 1)

/-- `min(max_frames_per_segment, max(1, int(duration / 2)))`. -/
def frames_to_extract (max_frames_per_segment : ℕ) (duration : ℚ) : ℕ :=
  (min (max_frames_per_segment : ℤ) (max 1 (ratTruncZ (duration / 2)))).toNat

/-- A successfully extracted frame; `Img` is the decoded image produced by
the external video decoder (`cap.read`); writing the jpg file and the
thumbnail are external side effects carried by the payload. -/
structure ExtractedFrame (Img : Type) where
  segment_index : ℕ
  frame_index : ℕ
  timestamp : ℚ
  frame_number : ℤ
  segment_text : List Char
  image : Img
deriving DecidableEq, Repr

/-- `FrameExtractor.extract_key_frames` over a decoder oracle
`readFrame : frame number → image or failure`: for every segment, choose the
frame times, seek and read each; a failed read (`ret` false) skips only that
timestamp. -/
def extract_key_frames {Img : Type} (readFrame : ℤ → Option Img) (fps : ℚ)
    (segments : List Segment) (max_frames_per_segment : ℕ) :
    List (ExtractedFrame Img) :=
  (segments.enum.map fun p =>
    let duration := p.2.end_time - p.2.start_time
    let k := frames_to_extract max_frames_per_segment duration
    (frame_times p.2.start_time duration k).enum.filterMap fun q =>
      let fnum := ratTruncZ (q.2 * fps)
      match readFrame fnum with
      | some img => some ⟨p.1, q.1, q.2, fnum, p.2.text, img⟩
      | none => none).flatten

/-! ## Extended persistence (`enhanced_video_processor._save_groups_and_frames`) -/
/-- A row of `segment_groups`. -/
structure GroupRow where
  id : ℕ
  video_id : ℕ
  video_filename : List Char
  group_index : ℕ
  group_start_time : ℚ
  group_end_time : ℚ
  group_duration : ℚ
  segments_count : ℕ
  combined_text : List Char
  word_count : ℕ
  avg_confidence : ℚ
  content_analysis : List Char
  difficulty_level : List Char
deriving DecidableEq, Repr

/-- A row of `group_segments`. -/
structure GroupSegRow where
  id : ℕ
  group_id : ℕ
  segment_index : ℕ
  start_time : ℚ
  end_time : ℚ
  text : List Char
  confidence : ℚ
deriving DecidableEq, Repr

/-- The frame dictionaries passed to `_save_groups_and_frames` (the
`frame_path` / `thumbnail_b64` payloads were produced by the extractor). -/
structure FrameData where
  segment_index : ℕ
  frame_index : ℕ
  timestamp : ℚ
  frame_path : List Char
  thumbnail_b64 : List Char
deriving DecidableEq, Repr

/-- A row of `video_frames` (`group_id` nullable: resolved by timestamp
containment, `NULL` when no scene contains the timestamp). -/
structure FrameRow where
  id : ℕ
  video_id : ℕ
  group_id : Option ℕ
  segment_index : ℕ
  frame_index : ℕ
  timestamp : ℚ
  frame_path : List Char
  thumbnail_b64 : List Char
  frame_analysis : List Char
deriving DecidableEq, Repr

/-- The extended store: `segment_groups`, `group_segments`, `video_frames`
with their autoincrement counters. -/
structure ExtDB where
  groups : List GroupRow
  groupSegs : List GroupSegRow
  frames : List FrameRow
  nextGroupId : ℕ
  nextSegId : ℕ
  nextFrameId : ℕ
deriving DecidableEq, Repr

/-- Insert the `group_segments` rows of one scene
(`for seg_idx, segment in enumerate(group['segments'])`). -/
def insertSegsLoop (group_db_id : ℕ) : ℕ → ExtDB → List Segment → ExtDB
  | _, d, [] => d
  | segIdx, d, seg :: rest =>
    let row : GroupSegRow :=
      { id := d.nextSegId, group_id := group_db_id, segment_index := segIdx,
        start_time := seg.start_time, end_time := seg.end_time,
        text := seg.text, confidence := seg.confidence }
    insertSegsLoop group_db_id (segIdx + 1)
      { d with groupSegs := d.groupSegs ++ [row], nextSegId := d.nextSegId + 1 } rest

/-- The `segment_groups` row inserted for one scene; `analysis` stands for
`json.dumps(analyze_group_content(group))` and the extracted
`difficulty_level` value (a deterministic function of the group). -/
def mkGroupRow (analysis : Group → List Char × List Char) (video_id : ℕ)
    (video_filename : List Char) (groupIdx rowId : ℕ) (g : Group) : GroupRow :=
  { id := rowId, video_id := video_id, video_filename := video_filename,
    group_index := groupIdx, group_start_time := g.group_start_time,
    group_end_time := g.group_end_time, group_duration := g.group_duration,
    segments_count := g.segments_count, combined_text := g.combined_text,
    word_count := g.word_count, avg_confidence := g.avg_confidence,
    content_analysis := (analysis g).1, difficulty_level := (analysis g).2 }

/-- Insert the `segment_groups` rows
(`for group_idx, group in enumerate(groups)`). -/
def insertGroupsLoop (analysis : Group → List Char × List Char)
    (video_id : ℕ) (video_filename : List Char) : ℕ → ExtDB → List Group → ExtDB
  | _, d, [] => d
  | groupIdx, d, g :: rest =>
    let row := mkGroupRow analysis video_id video_filename groupIdx d.nextGroupId g
    let d1 : ExtDB :=
      { d with groups := d.groups ++ [row], nextGroupId := d.nextGroupId + 1 }
    let d2 := insertSegsLoop row.id 0 d1 g.segments
    insertGroupsLoop analysis video_id video_filename (groupIdx + 1) d2 rest

/-- The `SELECT id FROM segment_groups WHERE video_id = ? AND
group_start_time <= ? AND group_end_time >= ?` lookup (first row in table
order). -/
def findGroupIdFor (d : ExtDB) (video_id : ℕ) (t : ℚ) : Option ℕ :=
  (d.groups.find? fun r =>
    decide (r.video_id = video_id) && decide (r.group_start_time ≤ t)
      && decide (t ≤ r.group_end_time)).map GroupRow.id

/-- Insert the `video_frames` rows; `frameAnalysis` stands for
`json.dumps(analyze_frame_content(frame_path))` (external image analysis,
deterministic in the path). -/
def insertFramesLoop (frameAnalysis : List Char → List Char) (video_id : ℕ) :
    ExtDB → List FrameData → ExtDB
  | d, [] => d
  | d, fr :: rest =>
    let row : FrameRow :=
      { id := d.nextFrameId, video_id := video_id,
        group_id := findGroupIdFor d video_id fr.timestamp,
        segment_index := fr.segment_index, frame_index := fr.frame_index,
        timestamp := fr.timestamp, frame_path := fr.frame_path,
        thumbnail_b64 := fr.thumbnail_b64,
        frame_analysis := frameAnalysis fr.frame_path }
    insertFramesLoop frameAnalysis video_id
      { d with frames := d.frames ++ [row], nextFrameId := d.nextFrameId + 1 } rest

/-- `EnhancedVideoProcessor._save_groups_and_frames`: insert all scene rows
with their segments, then all frame rows (no deletion or replacement of
existing rows happens anywhere in the function). -/
def save_groups_and_frames (analysis : Group → List Char × List Char)
    (frameAnalysis : List Char → List Char) (d : ExtDB) (video_id : ℕ)
    (video_filename : List Char) (groups : List Group) (frames : List FrameData) :
    ExtDB :=
  insertFramesLoop frameAnalysis video_id
    (insertGroupsLoop analysis video_id video_filename 0 d groups) frames

/-! ## Video processing state (`data_manager.save_video_state`) -/
/-- A row of `video_processing_state`. -/
structure VideoStateRow where
  id : ℕ
  video_filename : List Char
  video_path : List Char
  file_hash : List Char
  file_size : ℕ
  duration : ℚ
  sentences_extracted : ℕ
  sentences_with_ai : ℕ
  processing_completed : Bool
  last_modified : Option ℕ
  last_processed : ℕ
deriving DecidableEq, Repr

/-- The `video_processing_state` table plus its autoincrement counter. -/
structure StateDB where
  rows : List VideoStateRow
  nextId : ℕ
deriving DecidableEq, Repr

/-- The filesystem as an oracle: md5 of a path (`_get_file_hash`, empty
string when the file is unreadable) and its size. -/
structure FileSys where
  hashOf : List Char → List Char
  sizeOf : List Char → ℕ

/-- `DataManager.save_video_state` (timestamps modelled by the `now`
parameter standing for `CURRENT_TIMESTAMP`): when a row for the filename
exists and the stored hash equals the current file hash, only
`sentences_extracted` and `last_processed` are written; when the hash
differs, the full refresh clears `processing_completed`; otherwise a new row
is inserted. -/
def save_video_state (fs : FileSys) (now : ℕ) (db : StateDB)
    (video_filename video_path : List Char) (sentences_count : ℕ) :
    StateDB × ℕ :=
  let file_hash := fs.hashOf video_path
  let file_size := fs.sizeOf video_path
  let duration : ℚ := 0
  match db.rows.find? fun r => decide (r.video_filename = video_filename) with
  | some r =>
    if r.file_hash ≠ file_hash then
      let refresh : VideoStateRow → VideoStateRow := fun x =>
        if x.id = r.id then
          { x with
              video_path := video_path, file_hash := file_hash,
              file_size := file_size, duration := duration,
              sentences_extracted := sentences_count, sentences_with_ai := 0,
              processing_completed := false, last_modified := some now,
              last_processed := now }
        else x
      (⟨db.rows.map refresh, db.nextId⟩, r.id)
    else
      let touch : VideoStateRow → VideoStateRow := fun x =>
        if x.id = r.id then
          { x with sentences_extracted := sentences_count, last_processed := now }
        else x
      (⟨db.rows.map touch, db.nextId⟩, r.id)
  | none =>
    let row : VideoStateRow :=
      { id := db.nextId, video_filename := video_filename,
        video_path := video_path, file_hash := file_hash,
        file_size := file_size, duration := duration,
        sentences_extracted := sentences_count, sentences_with_ai := 0,
        processing_completed := false, last_modified := some now,
        last_processed := now }
    (⟨db.rows ++ [row], db.nextId + 1⟩, db.nextId)

/-- The `segment_groups` rows appended by one run, as a function of the first
group index and the first fresh row id. -/
def groupRowsFrom (analysis : Group → List Char × List Char) (video_id : ℕ)
    (video_filename : List Char) : ℕ → ℕ → List Group → List GroupRow
  | _, _, [] => []
  | gi, nid, g :: gs =>
    mkGroupRow analysis video_id video_filename gi nid g
      :: groupRowsFrom analysis video_id video_filename (gi + 1) (nid + 1) gs

/-- The payload of a `segment_groups` row: everything except the
autoincrement id. -/
def groupPayload (r : GroupRow) :
    ℕ × List Char × ℕ × ℚ × ℚ × ℚ × ℕ × List Char × ℕ × ℚ × List Char × List Char :=
  (r.video_id, r.video_filename, r.group_index, r.group_start_time,
   r.group_end_time, r.group_duration, r.segments_count, r.combined_text,
   r.word_count, r.avg_confidence, r.content_analysis, r.difficulty_level)

/-! ## The claims -/
instance decAiWF (db : AiDB) : Decidable (AiWF db) := by
  unfold AiWF
  infer_instance

/-- A segment whose two clauses have the same normalized text (the second
long enough to pass the length filter, the first not). -/
def demoSegDup : Segment := ⟨"Hi um ok. Hi  um  ok.".data, 0, 10, 1⟩

/-- A segment splitting into three sentences. -/
def demoSegTriple : Segment :=
  ⟨"Hello there one. Hello there two! Hello there end".data, 0, 10, 1⟩

/-- A two-clause segment used to instantiate the timestamp invariants. -/
def demoSeg : Segment := ⟨"Hello there. Word".data, 0, 10, 1⟩

/-- A one-row annotation store used to instantiate the upsert invariant. -/
def demoAiDB : AiDB :=
  ⟨[newAiRow 0 "hello".data "v".data 1 2 "translation".data "b".data "c".data none], 1⟩

/-- A filesystem oracle and a one-row processing-state table whose stored
hash matches the current file hash. -/
def demoFS : FileSys := ⟨fun _ => "h1".data, fun _ => 5⟩

/-- The stored state row of the unchanged file (completed flag set). -/
def demoStateRow : VideoStateRow :=
  ⟨1, "v1".data, "p".data, "h1".data, 5, 0, 3, 2, true, none, 7⟩

/-- The processing-state table holding `demoStateRow`. -/
def demoStateDB : StateDB := ⟨[demoStateRow], 2⟩

/-- A corpus whose single video was never marked completed. -/
def demoNotCompleted : CorpusDB :=
  ⟨[⟨1, "v1".data, "processed".data⟩],
   [(1, [⟨"Hello there my good friend.".data, 0, 10, 1⟩])],
   [("v1".data, false)], ⟨[], 0⟩⟩

/-- A single scene produced by the grouper from one 20-second segment. -/
def demoGroups : List Group :=
  group_segments_by_silence 5 10 [⟨"Hello everyone this is a long scene".data, 0, 20, 1⟩]

/-- A deterministic stand-in for the content analysis of a scene. -/
def demoAnalysis : Group → List Char × List Char :=
  fun _ => ("conversation".data, "intermediate".data)

/-- A deterministic stand-in for the frame content analysis. -/
def demoFrameAnalysis : List Char → List Char := fun _ => "frame".data

/-- The empty extended store. -/
def demoExt : ExtDB := ⟨[], [], [], 0, 0, 0⟩

/-- The per-sentence tagging step of `deduplicate_with_existing_sentences`
(named for reuse in proofs). -/
def enhanceTag (db : CorpusDB) (s : Sentence) : ESentence :=
  match (get_existing_sentences_map db).find? fun p => decide (p.1 = normalizeText s.text) with
  | some p => ⟨s, true, some p.2.video_filename, p.2.ai_count⟩
  | none => ⟨s, false, none, 0⟩

/-- A processed video whose transcript repeats the same clause, with a
translation cached only for the *second* emission (start time 4): the corpus
map's entry (built from the first emission, start time 0) then counts 0
annotations. -/
def demoCorpusDup : CorpusDB :=
  ⟨[⟨1, "v1".data, "processed".data⟩],
   [(1, [⟨"Hello there friend. Hello there friend.".data, 0, 10, 1⟩])],
   [("v1".data, true)],
   ⟨[newAiRow 1 "Hello there friend.".data "v1".data 4 9 "translation".data
      "first translation".data "llama".data none], 2⟩⟩

/-- A processed video with one sentence and a translation cached for it. -/
def demoCorpusReuse : CorpusDB :=
  ⟨[⟨1, "v1".data, "processed".data⟩],
   [(1, [⟨"Good morning my friend.".data, 0, 10, 1⟩])],
   [("v1".data, true)],
   ⟨[newAiRow 1 "Good morning my friend.".data "v1".data 0 7 "translation".data
      "guten morgen".data "llama".data none], 2⟩⟩


theorem wordsAux_nil (cur : List Char) :
    wordsAux cur [] = if cur.isEmpty then [] else [cur.reverse] := rfl

theorem wordsAux_ws {c : Char} (cur cs : List Char) (h : c.isWhitespace = true) :
    wordsAux cur (c :: cs) =
      if cur.isEmpty then wordsAux [] cs else cur.reverse :: wordsAux [] cs := by
  simp [wordsAux, h]

theorem wordsAux_nonws {c : Char} (cur cs : List Char) (h : c.isWhitespace = false) :
    wordsAux cur (c :: cs) = wordsAux (c :: cur) cs := by
  simp [wordsAux, h]

theorem reverse_ne_nil {w : List Char} (h : w ≠ []) : w.reverse ≠ [] := by
  simpa using h

theorem isEmpty_reverse_false {w : List Char} (h : w ≠ []) :
    w.reverse.isEmpty = false := by
  rw [List.isEmpty_eq_false]
  exact reverse_ne_nil h

theorem wordsAux_good (s : List Char) : ∀ (cur : List Char), cur.all nonWS →
    ∀ w ∈ wordsAux cur s, goodWord w := by
  induction s with
  | nil =>
    intro cur hcur w hw
    rw [wordsAux_nil] at hw
    by_cases hce : cur.isEmpty
    · rw [if_pos hce] at hw; simp at hw
    · rw [if_neg hce] at hw
      simp only [List.mem_singleton] at hw
      subst hw
      refine ⟨reverse_ne_nil ?_, by simpa using hcur⟩
      intro h2; exact hce (by simp [h2])
  | cons c cs ih =>
    intro cur hcur w hw
    by_cases hws : c.isWhitespace
    · rw [wordsAux_ws cur cs hws] at hw
      by_cases hce : cur.isEmpty
      · rw [if_pos hce] at hw
        exact ih [] (by simp) w hw
      · rw [if_neg hce, List.mem_cons] at hw
        rcases hw with hw | hw
        · subst hw
          refine ⟨reverse_ne_nil ?_, by simpa using hcur⟩
          intro h2; exact hce (by simp [h2])
        · exact ih [] (by simp) w hw
    · rw [wordsAux_nonws cur cs (by simpa using hws)] at hw
      refine ih (c :: cur) ?_ w hw
      simp only [List.all_cons, Bool.and_eq_true]
      exact ⟨by simp [nonWS, hws], hcur⟩

theorem pyWords_good (s : List Char) : goodWords (pyWords s) :=
  fun w hw => wordsAux_good s [] (by simp) w hw

theorem wordsAux_word_front (w : List Char) : ∀ (rest cur : List Char), w.all nonWS →
    wordsAux cur (w ++ rest) = wordsAux (w.reverse ++ cur) rest := by
  induction w with
  | nil => intro rest cur _; simp
  | cons c cs ih =>
    intro rest cur hall
    simp only [List.all_cons, Bool.and_eq_true] at hall
    have hws : c.isWhitespace = false := by
      have h1 := hall.1; simp [nonWS] at h1; simpa using h1
    rw [List.cons_append, wordsAux_nonws cur (cs ++ rest) hws, ih rest (c :: cur) hall.2]
    simp

theorem pyWords_unwords (ws : List (List Char)) (h : goodWords ws) :
    pyWords (unwords ws) = ws := by
  induction ws with
  | nil => simp [pyWords, unwords, wordsAux]
  | cons w ws2 ih =>
    have hw : goodWord w := h w (by simp)
    cases ws2 with
    | nil =>
      show wordsAux [] (unwords [w]) = [w]
      rw [show unwords [w] = w from rfl, show w = w ++ [] by simp,
        wordsAux_word_front w [] [] hw.2, wordsAux_nil]
      rw [List.append_nil, List.append_nil, isEmpty_reverse_false hw.1]
      simp
    | cons v ws3 =>
      have hgood2 : goodWords (v :: ws3) := fun u hu => h u (by simp [hu])
      show wordsAux [] (unwords (w :: v :: ws3)) = w :: v :: ws3
      rw [show unwords (w :: v :: ws3) = w ++ ' ' :: unwords (v :: ws3) from rfl,
        wordsAux_word_front w _ [] hw.2,
        wordsAux_ws _ _ (by decide), List.append_nil, isEmpty_reverse_false hw.1]
      simp only [Bool.false_eq_true, if_false, List.reverse_reverse]
      exact congrArg (w :: ·) (ih hgood2)

theorem collapseAux_word_front (w : List Char) : ∀ (rest : List Char) (b : Bool),
    w.all nonWS → w ≠ [] →
    collapseAux b (w ++ rest) = w ++ collapseAux false rest := by
  induction w with
  | nil => intro rest b _ hne; exact absurd rfl hne
  | cons c cs ih =>
    intro rest b hall _
    simp only [List.all_cons, Bool.and_eq_true] at hall
    have hws : c.isWhitespace = false := by
      have h1 := hall.1; simp [nonWS] at h1; simpa using h1
    rw [List.cons_append,
      show collapseAux b (c :: (cs ++ rest)) = c :: collapseAux false (cs ++ rest) by
        simp [collapseAux, hws]]
    cases hcs : cs with
    | nil => simp [hcs]
    | cons d ds =>
      rw [← hcs, ih rest false hall.2 (by simp [hcs]), List.cons_append]

theorem collapse_unwords (ws : List (List Char)) (h : goodWords ws) :
    ∀ b, collapseAux b (unwords ws) = unwords ws := by
  induction ws with
  | nil => intro b; simp [unwords, collapseAux]
  | cons w ws2 ih =>
    intro b
    have hw : goodWord w := h w (by simp)
    cases ws2 with
    | nil =>
      show collapseAux b (unwords [w]) = unwords [w]
      rw [show unwords [w] = w from rfl, show w = w ++ [] by simp,
        collapseAux_word_front w [] b hw.2 hw.1]
      simp [collapseAux]
    | cons v ws3 =>
      have hgood2 : goodWords (v :: ws3) := fun u hu => h u (by simp [hu])
      show collapseAux b (w ++ ' ' :: unwords (v :: ws3)) = w ++ ' ' :: unwords (v :: ws3)
      rw [collapseAux_word_front w _ b hw.2 hw.1,
        show collapseAux false (' ' :: unwords (v :: ws3))
            = ' ' :: collapseAux true (unwords (v :: ws3)) by simp [collapseAux],
        ih hgood2 true]

theorem dropWhile_of_head_nonws {l : List Char} (h : ∀ c ∈ l.head?, nonWS c) :
    l.dropWhile Char.isWhitespace = l := by
  cases l with
  | nil => rfl
  | cons c cs =>
    have hc : nonWS c := h c rfl
    simp only [nonWS, Bool.not_eq_true'] at hc
    simp [List.dropWhile_cons, hc]

theorem unwords_head_nonws (ws : List (List Char)) (h : goodWords ws) :
    ∀ c ∈ (unwords ws).head?, nonWS c := by
  cases ws with
  | nil => intro c hc; simp [unwords] at hc
  | cons w ws2 =>
    have hw : goodWord w := h w (by simp)
    obtain ⟨d, w2, hd⟩ := List.exists_cons_of_ne_nil hw.1
    have hdn : nonWS d := by
      have := hw.2; rw [hd] at this
      simp only [List.all_cons, Bool.and_eq_true] at this
      exact this.1
    intro c hc
    cases ws2 with
    | nil =>
      rw [show unwords [w] = w from rfl, hd] at hc
      simp only [List.head?_cons, Option.mem_def, Option.some.injEq] at hc
      subst hc; exact hdn
    | cons v ws3 =>
      rw [show unwords (w :: v :: ws3) = w ++ ' ' :: unwords (v :: ws3) from rfl,
        hd] at hc
      simp only [List.cons_append, List.head?_cons, Option.mem_def,
        Option.some.injEq] at hc
      subst hc; exact hdn

theorem unwords_ne_nil {ws : List (List Char)} (h : goodWords ws) (hne : ws ≠ []) :
    unwords ws ≠ [] := by
  cases ws with
  | nil => exact absurd rfl hne
  | cons w ws2 =>
    have hw : goodWord w := h w (by simp)
    cases ws2 with
    | nil => exact hw.1
    | cons v ws3 =>
      show w ++ ' ' :: unwords (v :: ws3) ≠ []
      simp

theorem unwords_reverse_head_nonws (ws : List (List Char)) (h : goodWords ws) :
    ∀ c ∈ (unwords ws).reverse.head?, nonWS c := by
  induction ws with
  | nil => intro c hc; simp [unwords] at hc
  | cons w ws2 ih =>
    have hw : goodWord w := h w (by simp)
    cases ws2 with
    | nil =>
      intro c hc
      rw [show unwords [w] = w from rfl] at hc
      have : c ∈ w.reverse := by
        cases hr : w.reverse with
        | nil => exact absurd hr (reverse_ne_nil hw.1)
        | cons d ds => rw [hr] at hc; simp at hc; simp [hr, hc]
      rw [List.mem_reverse] at this
      exact List.all_eq_true.mp hw.2 c this
    | cons v ws3 =>
      have hgood2 : goodWords (v :: ws3) := fun u hu => h u (by simp [hu])
      intro c hc
      rw [show unwords (w :: v :: ws3) = w ++ ' ' :: unwords (v :: ws3) from rfl,
        List.reverse_append] at hc
      have hne2 : (unwords (v :: ws3)).reverse ≠ [] := by
        simpa using unwords_ne_nil hgood2 (by simp)
      rw [show (' ' :: unwords (v :: ws3)).reverse
            = (unwords (v :: ws3)).reverse ++ [' '] by simp,
        List.append_assoc, List.head?_append_of_ne_nil _ hne2] at hc
      exact ih hgood2 c hc

theorem pyStrip_unwords (ws : List (List Char)) (h : goodWords ws) :
    pyStrip (unwords ws) = unwords ws := by
  unfold pyStrip
  rw [dropWhile_of_head_nonws (unwords_head_nonws ws h),
    dropWhile_of_head_nonws (unwords_reverse_head_nonws ws h),
    List.reverse_reverse]

theorem wordsAux_chars (s : List Char) : ∀ (cur w : List Char),
    w ∈ wordsAux cur s → ∀ c ∈ w, c ∈ cur ∨ c ∈ s := by
  induction s with
  | nil =>
    intro cur w hw c hc
    rw [wordsAux_nil] at hw
    by_cases hce : cur.isEmpty
    · rw [if_pos hce] at hw; simp at hw
    · rw [if_neg hce] at hw
      simp only [List.mem_singleton] at hw
      subst hw
      exact Or.inl (List.mem_reverse.mp hc)
  | cons ch cs ih =>
    intro cur w hw c hc
    by_cases hws : ch.isWhitespace
    · rw [wordsAux_ws cur cs hws] at hw
      by_cases hce : cur.isEmpty
      · rw [if_pos hce] at hw
        rcases ih [] w hw c hc with h | h
        · simp at h
        · exact Or.inr (List.mem_cons_of_mem ch h)
      · rw [if_neg hce, List.mem_cons] at hw
        rcases hw with hw | hw
        · subst hw
          exact Or.inl (List.mem_reverse.mp hc)
        · rcases ih [] w hw c hc with h | h
          · simp at h
          · exact Or.inr (List.mem_cons_of_mem ch h)
    · rw [wordsAux_nonws cur cs (by simpa using hws)] at hw
      rcases ih (ch :: cur) w hw c hc with h | h
      · rcases List.mem_cons.mp h with h | h
        · exact Or.inr (h ▸ List.mem_cons_self ch cs)
        · exact Or.inl h
      · exact Or.inr (List.mem_cons_of_mem ch h)

theorem unwords_chars (ws : List (List Char)) :
    ∀ c ∈ unwords ws, (∃ w ∈ ws, c ∈ w) ∨ c = ' ' := by
  induction ws with
  | nil => intro c hc; simp [unwords] at hc
  | cons w ws2 ih =>
    intro c hc
    cases ws2 with
    | nil =>
      rw [show unwords [w] = w from rfl] at hc
      exact Or.inl ⟨w, by simp, hc⟩
    | cons v ws3 =>
      rw [show unwords (w :: v :: ws3) = w ++ ' ' :: unwords (v :: ws3) from rfl] at hc
      rcases List.mem_append.mp hc with h | h
      · exact Or.inl ⟨w, by simp, h⟩
      · rcases List.mem_cons.mp h with h | h
        · exact Or.inr h
        · rcases ih c h with ⟨u, hu, hcu⟩ | h2
          · exact Or.inl ⟨u, by simp [hu], hcu⟩
          · exact Or.inr h2

theorem collapseAux_chars (s : List Char) : ∀ (b : Bool) (c : Char),
    c ∈ collapseAux b s → c ∈ s ∨ c = ' ' := by
  induction s with
  | nil => intro b c hc; simp [collapseAux] at hc
  | cons ch cs ih =>
    intro b c hc
    by_cases hws : ch.isWhitespace
    · simp only [collapseAux, hws, if_pos] at hc
      by_cases hb : b
      · rw [if_pos hb] at hc
        rcases ih true c hc with h | h
        · exact Or.inl (List.mem_cons_of_mem ch h)
        · exact Or.inr h
      · rw [if_neg hb] at hc
        rcases List.mem_cons.mp hc with h | h
        · exact Or.inr h
        · rcases ih true c h with h2 | h2
          · exact Or.inl (List.mem_cons_of_mem ch h2)
          · exact Or.inr h2
    · simp only [collapseAux, hws, Bool.false_eq_true, if_false] at hc
      rcases List.mem_cons.mp hc with h | h
      · exact Or.inl (h ▸ List.mem_cons_self ch cs)
      · rcases ih false c h with h2 | h2
        · exact Or.inl (List.mem_cons_of_mem ch h2)
        · exact Or.inr h2

theorem stripBoundary_subset {c : Char} {s : List Char}
    (h : c ∈ stripBoundary s) : c ∈ s := by
  unfold stripBoundary at h
  rw [List.mem_reverse] at h
  have h2 := (List.dropWhile_sublist (l := (s.dropWhile fun c => !isWordChar c).reverse)
    (fun c => !isWordChar c)).subset h
  rw [List.mem_reverse] at h2
  exact (List.dropWhile_sublist _).subset h2

theorem pyStrip_subset {c : Char} {s : List Char}
    (h : c ∈ pyStrip s) : c ∈ s := by
  unfold pyStrip at h
  rw [List.mem_reverse] at h
  have h2 := (List.dropWhile_sublist (l := (s.dropWhile Char.isWhitespace).reverse)
    Char.isWhitespace).subset h
  rw [List.mem_reverse] at h2
  exact (List.dropWhile_sublist _).subset h2

theorem char_toLower_idem (c : Char) : Char.toLower (Char.toLower c) = Char.toLower c := by
  simp only [Char.toLower]
  split
  · rename_i h
    set m := c.toNat with hm
    have h1 : 65 ≤ m := h.1
    have h2 : m ≤ 90 := h.2
    interval_cases m <;> decide
  · rfl

theorem normalizeText_eq (text : List Char) :
    normalizeText text = pyStrip (unwords (normCore text)) := rfl

theorem normCore_good (text : List Char) : goodWords (normCore text) := by
  intro w hw
  exact pyWords_good _ w (List.mem_of_mem_filter hw)

theorem normalizeText_unwords (text : List Char) :
    normalizeText text = unwords (normCore text) := by
  rw [normalizeText_eq, pyStrip_unwords _ (normCore_good text)]

theorem normalizeText_lower_fixed (text : List Char) :
    ∀ c ∈ normalizeText text, Char.toLower c = c := by
  intro c hc
  have hsp : Char.toLower ' ' = ' ' := by decide
  rw [normalizeText_eq] at hc
  have hc2 := pyStrip_subset hc
  rcases unwords_chars _ c hc2 with ⟨w, hw, hcw⟩ | hsp2
  · have hw4 : w ∈ pyWords (collapseAux false (stripBoundary (unwords (pyWords
        (text.map Char.toLower))))) := List.mem_of_mem_filter hw
    have hc4 := wordsAux_chars _ [] w hw4 c hcw
    rcases hc4 with h | hc4
    · simp at h
    rcases collapseAux_chars _ false c hc4 with hc3 | hsp2
    · have hc2b := stripBoundary_subset hc3
      rcases unwords_chars _ c hc2b with ⟨w2, hw2, hcw2⟩ | hsp2
      · have hc1 := wordsAux_chars _ [] w2 hw2 c hcw2
        rcases hc1 with h | hc1
        · simp at h
        rcases List.mem_map.mp hc1 with ⟨d, _, hd⟩
        rw [← hd]
        exact char_toLower_idem d
      · rw [hsp2]; exact hsp
    · rw [hsp2]; exact hsp
  · rw [hsp2]; exact hsp

theorem map_eq_self_of_mem {l : List Char} {f : Char → Char}
    (h : ∀ c ∈ l, f c = c) : l.map f = l := by
  induction l with
  | nil => rfl
  | cons c cs ih =>
    simp only [List.map_cons, h c (by simp)]
    exact congrArg (c :: ·) (ih fun d hd => h d (by simp [hd]))

theorem normalizeText_map_toLower (text : List Char) :
    (normalizeText text).map Char.toLower = normalizeText text :=
  map_eq_self_of_mem (normalizeText_lower_fixed text)

theorem filter_normCore (text : List Char) :
    (normCore text).filter (fun w => decide (w ∉ fillerWords)) = normCore text := by
  rw [normCore, List.filter_filter]
  congr 1
  funext a
  exact Bool.and_self _

theorem normalizeText_idem_of_boundary (s : List Char)
    (h : stripBoundary (normalizeText s) = normalizeText s) :
    normalizeText (normalizeText s) = normalizeText s := by
  have hgood : goodWords (normCore s) := normCore_good s
  have hy : normalizeText s = unwords (normCore s) := normalizeText_unwords s
  conv_lhs => rw [normalizeText_eq, normCore]
  rw [normalizeText_map_toLower]
  rw [hy, pyWords_unwords _ hgood, ← hy, h, hy,
    collapse_unwords _ hgood false, pyWords_unwords _ hgood, filter_normCore,
    ← normalizeText_eq]
  exact hy

/-! ## Correspondence between the deduplicating and the simple splitter -/
theorem emitLoop_nil (E C : ℚ) (n i : ℕ) (st : EmitState) :
    emitLoop E C n i [] st = st := rfl

theorem emitLoop_skip {part : List Char} (E C : ℚ) (n i : ℕ) (rest : List (List Char))
    (st : EmitState) (h : hasContent part = false) :
    emitLoop E C n i (part :: rest) st = emitLoop E C n (i + 1) rest st := by
  simp [emitLoop, h]

theorem emitLoop_accum {part : List Char} (E C : ℚ) (n i : ℕ) (rest : List (List Char))
    (st : EmitState) (h : hasContent part = true) (h2 : startsDelim part = false) :
    emitLoop E C n i (part :: rest) st =
      emitLoop E C n (i + 1) rest ⟨st.cur ++ part, st.curStart, st.out⟩ := by
  simp [emitLoop, h, h2]

theorem emitLoop_accum2 {part : List Char} (E C : ℚ) (n i : ℕ) (rest : List (List Char))
    (st : EmitState) (h : hasContent part = true) (h2 : startsDelim part = true)
    (h3 : hasContent (st.cur ++ part) = false) :
    emitLoop E C n i (part :: rest) st =
      emitLoop E C n (i + 1) rest ⟨st.cur ++ part, st.curStart, st.out⟩ := by
  simp [emitLoop, h, h2, h3]

theorem emitLoop_emit {part : List Char} (E C : ℚ) (n i : ℕ) (rest : List (List Char))
    (st : EmitState) (h : hasContent part = true) (h2 : startsDelim part = true)
    (h3 : hasContent (st.cur ++ part) = true) :
    emitLoop E C n i (part :: rest) st =
      emitLoop E C n (i + 1) rest
        ⟨[], interpEnd E st.curStart i n,
          st.out ++ [⟨pyStrip (st.cur ++ part), st.curStart,
            min (interpEnd E st.curStart i n) E, C⟩]⟩ := by
  simp [emitLoop, h, h2, h3]

theorem dedupLoop_nil (E C : ℚ) (n i : ℕ) (st : DedupState) :
    dedupLoop E C n i [] st = st := rfl

theorem dedupLoop_skip {part : List Char} (E C : ℚ) (n i : ℕ) (rest : List (List Char))
    (st : DedupState) (h : hasContent part = false) :
    dedupLoop E C n i (part :: rest) st = dedupLoop E C n (i + 1) rest st := by
  simp [dedupLoop, h]

theorem dedupLoop_accum {part : List Char} (E C : ℚ) (n i : ℕ) (rest : List (List Char))
    (st : DedupState) (h : hasContent part = true) (h2 : startsDelim part = false) :
    dedupLoop E C n i (part :: rest) st =
      dedupLoop E C n (i + 1) rest ⟨st.cur ++ part, st.curStart, st.seen, st.out⟩ := by
  simp [dedupLoop, h, h2]

theorem dedupLoop_accum2 {part : List Char} (E C : ℚ) (n i : ℕ) (rest : List (List Char))
    (st : DedupState) (h : hasContent part = true) (h2 : startsDelim part = true)
    (h3 : hasContent (st.cur ++ part) = false) :
    dedupLoop E C n i (part :: rest) st =
      dedupLoop E C n (i + 1) rest ⟨st.cur ++ part, st.curStart, st.seen, st.out⟩ := by
  simp [dedupLoop, h, h2, h3]

theorem dedupLoop_emit_dup {part : List Char} (E C : ℚ) (n i : ℕ) (rest : List (List Char))
    (st : DedupState) (h : hasContent part = true) (h2 : startsDelim part = true)
    (h3 : hasContent (st.cur ++ part) = true)
    (h4 : normalizeText (pyStrip (st.cur ++ part)) ∈ st.seen) :
    dedupLoop E C n i (part :: rest) st =
      dedupLoop E C n (i + 1) rest ⟨[], interpEnd E st.curStart i n, st.seen, st.out⟩ := by
  simp [dedupLoop, h, h2, h3, h4]

theorem dedupLoop_emit_new {part : List Char} (E C : ℚ) (n i : ℕ) (rest : List (List Char))
    (st : DedupState) (h : hasContent part = true) (h2 : startsDelim part = true)
    (h3 : hasContent (st.cur ++ part) = true)
    (h4 : normalizeText (pyStrip (st.cur ++ part)) ∉ st.seen) :
    dedupLoop E C n i (part :: rest) st =
      dedupLoop E C n (i + 1) rest
        ⟨[], interpEnd E st.curStart i n,
          normalizeText (pyStrip (st.cur ++ part)) :: st.seen,
          st.out ++ [⟨pyStrip (st.cur ++ part), st.curStart,
            min (interpEnd E st.curStart i n) E, C⟩]⟩ := by
  simp [dedupLoop, h, h2, h3, h4]

theorem emitLoop_out_append (E C : ℚ) (n : ℕ) (parts : List (List Char)) :
    ∀ (i : ℕ) (cur : List Char) (cs : ℚ) (out : List Sentence),
    emitLoop E C n i parts ⟨cur, cs, out⟩ =
      ⟨(emitLoop E C n i parts ⟨cur, cs, []⟩).cur,
       (emitLoop E C n i parts ⟨cur, cs, []⟩).curStart,
       out ++ (emitLoop E C n i parts ⟨cur, cs, []⟩).out⟩ := by
  induction parts with
  | nil => intro i cur cs out; simp [emitLoop_nil]
  | cons part rest ih =>
    intro i cur cs out
    by_cases h1 : hasContent part
    · by_cases h2 : startsDelim part
      · by_cases h3 : hasContent (cur ++ part)
        · rw [emitLoop_emit E C n i rest _ h1 h2 h3,
            emitLoop_emit E C n i rest _ h1 h2 h3]
          simp only [List.nil_append]
          rw [ih, ih (i + 1) [] (interpEnd E cs i n)
            [⟨pyStrip (cur ++ part), cs, min (interpEnd E cs i n) E, C⟩]]
          simp
        · rw [emitLoop_accum2 E C n i rest _ h1 h2 (by simpa using h3),
            emitLoop_accum2 E C n i rest _ h1 h2 (by simpa using h3)]
          exact ih (i + 1) (cur ++ part) cs out
      · rw [emitLoop_accum E C n i rest _ h1 (by simpa using h2),
          emitLoop_accum E C n i rest _ h1 (by simpa using h2)]
        exact ih (i + 1) (cur ++ part) cs out
    · rw [emitLoop_skip E C n i rest _ (by simpa using h1),
        emitLoop_skip E C n i rest _ (by simpa using h1)]
      exact ih (i + 1) cur cs out

theorem dedupSpec_append (a : List Sentence) :
    ∀ (seen : List (List Char)) (b : List Sentence),
    dedupSpec seen (a ++ b) =
      ((dedupSpec seen a).1 ++ (dedupSpec (dedupSpec seen a).2 b).1,
       (dedupSpec (dedupSpec seen a).2 b).2) := by
  induction a with
  | nil => intro seen b; simp [dedupSpec]
  | cons s rest ih =>
    intro seen b
    by_cases h : normalizeText s.text ∈ seen
    · simp only [List.cons_append, dedupSpec, if_pos h]
      exact ih seen b
    · simp only [List.cons_append, dedupSpec, if_neg h]
      simp only [List.append_eq]
      rw [ih (normalizeText s.text :: seen) b]

theorem dedupSpec_cons_mem (s : Sentence) (seen : List (List Char)) (l : List Sentence)
    (h : normalizeText s.text ∈ seen) :
    dedupSpec seen (s :: l) = dedupSpec seen l := by
  simp [dedupSpec, h]

theorem dedupSpec_cons_new (s : Sentence) (seen : List (List Char)) (l : List Sentence)
    (h : normalizeText s.text ∉ seen) :
    dedupSpec seen (s :: l) =
      (s :: (dedupSpec (normalizeText s.text :: seen) l).1,
       (dedupSpec (normalizeText s.text :: seen) l).2) := by
  simp [dedupSpec, h]

theorem dedupLoop_eq_emitLoop (E C : ℚ) (n : ℕ) (parts : List (List Char)) :
    ∀ (i : ℕ) (cur : List Char) (cs : ℚ) (seen : List (List Char)) (out : List Sentence),
    dedupLoop E C n i parts ⟨cur, cs, seen, out⟩ =
      ⟨(emitLoop E C n i parts ⟨cur, cs, []⟩).cur,
       (emitLoop E C n i parts ⟨cur, cs, []⟩).curStart,
       (dedupSpec seen (emitLoop E C n i parts ⟨cur, cs, []⟩).out).2,
       out ++ (dedupSpec seen (emitLoop E C n i parts ⟨cur, cs, []⟩).out).1⟩ := by
  induction parts with
  | nil => intro i cur cs seen out; simp [dedupLoop_nil, emitLoop_nil, dedupSpec]
  | cons part rest ih =>
    intro i cur cs seen out
    by_cases h1 : hasContent part
    · by_cases h2 : startsDelim part
      · by_cases h3 : hasContent (cur ++ part)
        · rw [emitLoop_emit E C n i rest ⟨cur, cs, []⟩ h1 h2 h3]
          simp only [List.nil_append]
          rw [emitLoop_out_append E C n rest (i + 1) [] (interpEnd E cs i n)
            [⟨pyStrip (cur ++ part), cs, min (interpEnd E cs i n) E, C⟩]]
          simp only [List.singleton_append]
          by_cases h4 : normalizeText (pyStrip (cur ++ part)) ∈ seen
          · rw [dedupLoop_emit_dup E C n i rest ⟨cur, cs, seen, out⟩ h1 h2 h3 h4]
            dsimp only
            rw [ih]
            rw [dedupSpec_cons_mem ⟨pyStrip (cur ++ part), cs, min (interpEnd E cs i n) E, C⟩
              seen _ h4]
          · rw [dedupLoop_emit_new E C n i rest ⟨cur, cs, seen, out⟩ h1 h2 h3 h4]
            dsimp only
            rw [ih]
            rw [dedupSpec_cons_new ⟨pyStrip (cur ++ part), cs, min (interpEnd E cs i n) E, C⟩
              seen _ h4]
            simp
        · rw [dedupLoop_accum2 E C n i rest ⟨cur, cs, seen, out⟩ h1 h2 (by simpa using h3),
            emitLoop_accum2 E C n i rest ⟨cur, cs, []⟩ h1 h2 (by simpa using h3)]
          exact ih (i + 1) (cur ++ part) cs seen out
      · rw [dedupLoop_accum E C n i rest ⟨cur, cs, seen, out⟩ h1 (by simpa using h2),
          emitLoop_accum E C n i rest ⟨cur, cs, []⟩ h1 (by simpa using h2)]
        exact ih (i + 1) (cur ++ part) cs seen out
    · rw [dedupLoop_skip E C n i rest ⟨cur, cs, seen, out⟩ (by simpa using h1),
        emitLoop_skip E C n i rest ⟨cur, cs, []⟩ (by simpa using h1)]
      exact ih (i + 1) cur cs seen out

theorem dedupSpec_singleton (seen : List (List Char)) (x : Sentence) :
    dedupSpec seen [x] =
      if normalizeText x.text ∈ seen then ([], seen)
      else ([x], normalizeText x.text :: seen) := by
  by_cases h : normalizeText x.text ∈ seen
  · simp [dedupSpec, h]
  · simp [dedupSpec, h]

theorem processSegDedup_eq (seg : Segment) (acc : List (List Char) × List Sentence) :
    processSegDedup seg acc =
      ((dedupSpec acc.1 (emitSeg seg)).2, acc.2 ++ (dedupSpec acc.1 (emitSeg seg)).1) := by
  obtain ⟨seen, out⟩ := acc
  show processSegDedup seg (seen, out) = _
  unfold processSegDedup emitSeg emitSegFull
  dsimp only
  rw [dedupLoop_eq_emitLoop]
  dsimp only
  by_cases hc : hasContent (emitLoop seg.end_time seg.confidence
      (reSplit (pyStrip seg.text)).length 0 (reSplit (pyStrip seg.text))
      ⟨[], seg.start_time, []⟩).cur
  · rw [if_pos hc, if_pos hc, dedupSpec_append]
    rw [dedupSpec_singleton]
    by_cases hm : normalizeText (pyStrip ((emitLoop seg.end_time seg.confidence
        (reSplit (pyStrip seg.text)).length 0 (reSplit (pyStrip seg.text))
        ⟨[], seg.start_time, []⟩).cur)) ∈ (dedupSpec seen (emitLoop seg.end_time
          seg.confidence (reSplit (pyStrip seg.text)).length 0
          (reSplit (pyStrip seg.text)) ⟨[], seg.start_time, []⟩).out).2
    · rw [if_pos hm, if_pos hm]
      simp
    · rw [if_neg hm, if_neg hm]
      simp
  · rw [if_neg hc, if_neg hc]

theorem foldl_processSegDedup (segs : List Segment) :
    ∀ (seen : List (List Char)) (out : List Sentence),
    segs.foldl (fun acc seg => processSegDedup seg acc) (seen, out) =
      ((dedupSpec seen ((segs.map emitSeg).flatten)).2,
       out ++ (dedupSpec seen ((segs.map emitSeg).flatten)).1) := by
  induction segs with
  | nil => intro seen out; simp [dedupSpec]
  | cons seg rest ih =>
    intro seen out
    rw [List.foldl_cons, processSegDedup_eq, ih, List.map_cons, List.flatten_cons,
      dedupSpec_append]
    simp

theorem split_text_into_sentences_eq (segs : List Segment) :
    split_text_into_sentences segs =
      ((dedupSpec [] ((segs.map emitSeg).flatten)).1).filter fun s =>
        decide ((pyStrip s.text).length ≥ 10) && !(onlyPunct (pyStrip s.text)) := by
  unfold split_text_into_sentences
  rw [foldl_processSegDedup]
  simp

theorem dedupSpec_norm_nodup (l : List Sentence) : ∀ (seen : List (List Char)),
    ((dedupSpec seen l).1.map fun s => normalizeText s.text).Nodup
    ∧ ∀ s ∈ (dedupSpec seen l).1, normalizeText s.text ∉ seen := by
  induction l with
  | nil => intro seen; simp [dedupSpec]
  | cons s rest ih =>
    intro seen
    by_cases h : normalizeText s.text ∈ seen
    · rw [dedupSpec_cons_mem s seen rest h]
      exact ih seen
    · rw [dedupSpec_cons_new s seen rest h]
      obtain ⟨ihn, ihm⟩ := ih (normalizeText s.text :: seen)
      refine ⟨?_, ?_⟩
      · simp only [List.map_cons, List.nodup_cons]
        refine ⟨?_, ihn⟩
        intro hmem
        rcases List.mem_map.mp hmem with ⟨t, ht, hnt⟩
        exact (ihm t ht) (by rw [hnt]; exact List.mem_cons_self _ _)
      · intro t ht
        rcases List.mem_cons.mp ht with ht | ht
        · subst ht; exact h
        · intro hts
          exact (ihm t ht) (List.mem_cons_of_mem _ hts)

theorem chainFrom_append_one {a b : ℚ} {x : Sentence} (out : List Sentence)
    (h : chainFrom a out b) (hx : x.start_time = b) :
    chainFrom a (out ++ [x]) x.end_time := by
  induction out generalizing a with
  | nil =>
    have ha : a = b := h
    exact ⟨by rw [hx, ha], rfl⟩
  | cons s rest ih =>
    exact ⟨h.1, ih h.2⟩

theorem interpEnd_bounds {E cs : ℚ} {j n : ℕ} (hcs : cs ≤ E) (hj : j < n) :
    cs ≤ interpEnd E cs j n ∧ interpEnd E cs j n ≤ E := by
  have hn0 : (0 : ℚ) < (n : ℚ) := by exact_mod_cast Nat.zero_lt_of_lt hj
  have hp0 : (0 : ℚ) ≤ ((j : ℚ) + 1) / (n : ℚ) := by positivity
  have hp1 : ((j : ℚ) + 1) / (n : ℚ) ≤ 1 := by
    rw [div_le_one hn0]
    have hjn : (j : ℚ) + 1 ≤ (n : ℚ) := by exact_mod_cast hj
    linarith
  constructor
  · unfold interpEnd
    nlinarith [mul_nonneg (sub_nonneg.mpr hcs) hp0]
  · unfold interpEnd
    nlinarith [mul_le_of_le_one_right (sub_nonneg.mpr hcs) hp1]

theorem emitLoop_inv (E C S0 : ℚ) (n : ℕ) (parts : List (List Char)) :
    ∀ (i : ℕ) (cur : List Char) (cs : ℚ) (out : List Sentence),
    i + parts.length = n →
    cs ≤ E →
    chainFrom S0 out cs →
    (∀ s ∈ out, s.start_time ≤ s.end_time ∧ s.end_time ≤ E) →
    (∀ s ∈ out, ∃ j, j < n ∧ s.end_time = interpEnd E s.start_time j n) →
    (emitLoop E C n i parts ⟨cur, cs, out⟩).curStart ≤ E
    ∧ chainFrom S0 (emitLoop E C n i parts ⟨cur, cs, out⟩).out
        (emitLoop E C n i parts ⟨cur, cs, out⟩).curStart
    ∧ (∀ s ∈ (emitLoop E C n i parts ⟨cur, cs, out⟩).out,
        s.start_time ≤ s.end_time ∧ s.end_time ≤ E)
    ∧ (∀ s ∈ (emitLoop E C n i parts ⟨cur, cs, out⟩).out,
        ∃ j, j < n ∧ s.end_time = interpEnd E s.start_time j n) := by
  induction parts with
  | nil =>
    intro i cur cs out _ hcs hchain hb hf
    rw [emitLoop_nil]
    exact ⟨hcs, hchain, hb, hf⟩
  | cons part rest ih =>
    intro i cur cs out hn hcs hchain hb hf
    have hn2 : (i + 1) + rest.length = n := by
      simpa [Nat.add_comm, Nat.add_assoc, Nat.add_left_comm] using hn
    have hin : i < n := by omega
    by_cases h1 : hasContent part
    · by_cases h2 : startsDelim part
      · by_cases h3 : hasContent (cur ++ part)
        · rw [emitLoop_emit E C n i rest ⟨cur, cs, out⟩ h1 h2 h3]
          dsimp only
          have hbnd := interpEnd_bounds hcs hin
          have hminE : min (interpEnd E cs i n) E = interpEnd E cs i n :=
            min_eq_left hbnd.2
          refine ih (i + 1) [] (interpEnd E cs i n) _ hn2 hbnd.2 ?_ ?_ ?_
          · have := chainFrom_append_one
              (x := ⟨pyStrip (cur ++ part), cs, min (interpEnd E cs i n) E, C⟩)
              out hchain rfl
            simpa [hminE] using this
          · intro s hs
            rcases List.mem_append.mp hs with hs | hs
            · exact hb s hs
            · simp only [List.mem_singleton] at hs
              subst hs
              simp only [hminE]
              exact ⟨hbnd.1, hbnd.2⟩
          · intro s hs
            rcases List.mem_append.mp hs with hs | hs
            · exact hf s hs
            · simp only [List.mem_singleton] at hs
              subst hs
              exact ⟨i, hin, by simp [hminE]⟩
        · rw [emitLoop_accum2 E C n i rest ⟨cur, cs, out⟩ h1 h2 (by simpa using h3)]
          exact ih (i + 1) (cur ++ part) cs out hn2 hcs hchain hb hf
      · rw [emitLoop_accum E C n i rest ⟨cur, cs, out⟩ h1 (by simpa using h2)]
        exact ih (i + 1) (cur ++ part) cs out hn2 hcs hchain hb hf
    · rw [emitLoop_skip E C n i rest ⟨cur, cs, out⟩ (by simpa using h1)]
      exact ih (i + 1) cur cs out hn2 hcs hchain hb hf

theorem emitSeg_props (seg : Segment) (h : seg.start_time ≤ seg.end_time) :
    (∃ b, chainFrom seg.start_time (emitSeg seg) b)
    ∧ (∀ s ∈ emitSeg seg, s.start_time ≤ s.end_time ∧ s.end_time ≤ seg.end_time)
    ∧ (∀ s ∈ emitSeg seg,
        (∃ j, j < (reSplit (pyStrip seg.text)).length
          ∧ s.end_time = interpEnd seg.end_time s.start_time j
              (reSplit (pyStrip seg.text)).length)
        ∨ s.end_time = seg.end_time) := by
  have hinv := emitLoop_inv seg.end_time seg.confidence seg.start_time
    (reSplit (pyStrip seg.text)).length (reSplit (pyStrip seg.text)) 0 []
    seg.start_time [] (by simp) h (rfl) (by simp) (by simp)
  obtain ⟨hcs, hchain, hb, hf⟩ := hinv
  unfold emitSeg emitSegFull
  dsimp only
  by_cases hc : hasContent (emitLoop seg.end_time seg.confidence
      (reSplit (pyStrip seg.text)).length 0 (reSplit (pyStrip seg.text))
      ⟨[], seg.start_time, []⟩).cur
  · rw [if_pos hc]
    refine ⟨⟨seg.end_time, ?_⟩, ?_, ?_⟩
    · exact chainFrom_append_one _ hchain rfl
    · intro s hs
      rcases List.mem_append.mp hs with hs | hs
      · exact hb s hs
      · simp only [List.mem_singleton] at hs
        subst hs
        exact ⟨hcs, le_refl _⟩
    · intro s hs
      rcases List.mem_append.mp hs with hs | hs
      · exact Or.inl (hf s hs)
      · simp only [List.mem_singleton] at hs
        subst hs
        exact Or.inr rfl
  · rw [if_neg hc]
    exact ⟨⟨_, hchain⟩, hb, fun s hs => Or.inl (hf s hs)⟩

/-! ## Lemmas about the annotation store -/
theorem rowKeyMatch_iff (h : List Char × List Char × ℚ) (rt : List Char)
    (cp : Option (List Char)) (r : AiRow) :
    rowKeyMatch h rt cp r = true ↔ rowFullKey r = (h, rt, cp) := by
  simp [rowKeyMatch, rowFullKey, Prod.ext_iff, and_assoc]

theorem map_congr_mem {α β : Type} {f g : α → β} :
    ∀ {l : List α}, (∀ a ∈ l, f a = g a) → l.map f = l.map g := by
  intro l
  induction l with
  | nil => intro _; rfl
  | cons a as ih =>
    intro h
    simp only [List.map_cons, h a (by simp)]
    exact congrArg _ (ih fun b hb => h b (by simp [hb]))

theorem filter_map_untouched {α : Type} {p : α → Bool} {f : α → α} :
    ∀ {l : List α}, (∀ x ∈ l, f x = x ∨ (p x = false ∧ p (f x) = false)) →
    (l.map f).filter p = l.filter p := by
  intro l
  induction l with
  | nil => intro _; rfl
  | cons a as ih =>
    intro h
    have ha := h a (by simp)
    have hrest := ih fun x hx => h x (by simp [hx])
    rcases ha with ha | ⟨ha1, ha2⟩
    · simp only [List.map_cons, ha, List.filter_cons]
      split
      · exact congrArg _ hrest
      · exact hrest
    · simp only [List.map_cons, List.filter_cons, ha1, ha2, Bool.false_eq_true,
        if_false]
      exact hrest

theorem filter_map_comm_of_pres {α : Type} {p : α → Bool} {f : α → α}
    (hp : ∀ x, p (f x) = p x) :
    ∀ (l : List α), (l.map f).filter p = (l.filter p).map f := by
  intro l
  induction l with
  | nil => rfl
  | cons a as ih =>
    simp only [List.map_cons, List.filter_cons, hp a]
    split
    · simp only [List.map_cons]
      exact congrArg _ ih
    · exact ih

theorem filter_eq_singleton_of_pairwise {l : List AiRow} {p : AiRow → Bool} {r : AiRow}
    (hpair : l.Pairwise fun a b => rowFullKey a ≠ rowFullKey b)
    (hkey : ∀ x, p x = true ↔ rowFullKey x = rowFullKey r)
    (hr : r ∈ l) : l.filter p = [r] := by
  induction l with
  | nil => simp at hr
  | cons a as ih =>
    rcases List.mem_cons.mp hr with hr1 | hr1
    · have hpa : p a = true := (hkey a).mpr (by rw [hr1])
      simp only [List.filter_cons, hpa, if_pos]
      have hnil : as.filter p = [] := by
        rw [List.filter_eq_nil_iff]
        intro b hb hpb
        have hkb : rowFullKey b = rowFullKey r := (hkey b).mp hpb
        exact (List.pairwise_cons.mp hpair).1 b hb (by rw [hkb, hr1])
      rw [hnil, hr1]
    · have hpa : p a = false := by
        cases hpab : p a with
        | false => rfl
        | true =>
          exact absurd ((hkey a).mp hpab) ((List.pairwise_cons.mp hpair).1 r hr1)
      simp only [List.filter_cons, hpa, Bool.false_eq_true, if_false]
      exact ih (List.pairwise_cons.mp hpair).2 hr1

theorem save_ai_response_wf (db : AiDB) (t v : List Char) (st et : ℚ)
    (rt resp client : List Char) (cp : Option (List Char)) (hwf : AiWF db) :
    AiWF (save_ai_response db t v st et rt resp client cp).1 := by
  obtain ⟨hnd, hlt, hpair⟩ := hwf
  cases hfind : db.rows.find? (rowKeyMatch (sentence_hash t v st) rt cp) with
  | some r =>
    simp only [save_ai_response, hfind]
    refine ⟨?_, ?_, ?_⟩
    · have : ((db.rows.map fun x =>
          if x.id = r.id then updRow resp client (r.version + 1) x
          else x).map AiRow.id) = db.rows.map AiRow.id := by
        rw [List.map_map]
        refine map_congr_mem fun x _ => ?_
        by_cases hx : x.id = r.id
        · simp [Function.comp, hx, updRow]
        · simp [Function.comp, hx]
      rw [this]
      exact hnd
    · intro x hx
      rcases List.mem_map.mp hx with ⟨y, hy, hxy⟩
      subst hxy
      by_cases hyid : y.id = r.id
      · simpa [hyid, updRow] using hlt y hy
      · simpa [hyid] using hlt y hy
    · rw [List.pairwise_map]
      refine hpair.imp_of_mem fun {a b} _ _ hab => ?_
      by_cases ha : a.id = r.id <;> by_cases hb : b.id = r.id <;>
        simpa [ha, hb, rowFullKey, updRow] using hab
  | none =>
    simp only [save_ai_response, hfind]
    have hnotin : ∀ x ∈ db.rows, rowKeyMatch (sentence_hash t v st) rt cp x = false := by
      intro x hx
      have := List.find?_eq_none.mp hfind x hx
      simpa using this
    refine ⟨?_, ?_, ?_⟩
    · rw [List.map_append]
      rw [List.nodup_append]
      refine ⟨hnd, by simp, ?_⟩
      intro x hx
      rcases List.mem_map.mp hx with ⟨y, hy, hxy⟩
      subst hxy
      simp only [List.map_cons, List.map_nil, List.mem_singleton]
      intro hcon
      exact absurd (hcon ▸ hlt y hy) (lt_irrefl _)
    · intro x hx
      rcases List.mem_append.mp hx with hx | hx
      · exact Nat.lt_succ_of_lt (hlt x hx)
      · simp only [List.mem_singleton] at hx
        subst hx
        exact Nat.lt_succ_self _
    · rw [List.pairwise_append]
      refine ⟨hpair, by simp, ?_⟩
      intro a ha b hb
      simp only [List.mem_singleton] at hb
      subst hb
      intro hcon
      have : rowKeyMatch (sentence_hash t v st) rt cp a = true := by
        rw [rowKeyMatch_iff, hcon]
        simp [rowFullKey, newAiRow]
      rw [hnotin a ha] at this
      exact absurd this (by simp)

theorem rowKeyMatch_updRow (k : List Char × List Char × ℚ) (rt : List Char)
    (cp : Option (List Char)) (resp client : List Char) (ver : ℕ) (x : AiRow) :
    rowKeyMatch k rt cp (updRow resp client ver x) = rowKeyMatch k rt cp x := rfl

theorem rowKeyMatch_editRow (k : List Char × List Char × ℚ) (rt : List Char)
    (cp : Option (List Char)) (ed : List Char) (x : AiRow) :
    rowKeyMatch k rt cp (editRow ed x) = rowKeyMatch k rt cp x := rfl

theorem get_of_filter_singleton {db : AiDB} {t v : List Char} {s : ℚ}
    {rt : List Char} {cp : Option (List Char)} {r : AiRow}
    (h : db.rows.filter (rowKeyMatch (sentence_hash t v s) rt cp) = [r]) :
    get_ai_response db t v s rt cp = some r := by
  unfold get_ai_response
  dsimp only
  rw [h]
  rfl

theorem get_of_filter_nil {db : AiDB} {t v : List Char} {s : ℚ}
    {rt : List Char} {cp : Option (List Char)}
    (h : db.rows.filter (rowKeyMatch (sentence_hash t v s) rt cp) = []) :
    get_ai_response db t v s rt cp = none := by
  unfold get_ai_response
  dsimp only
  rw [h]
  rfl

theorem get_ai_response_after_save_other (db : AiDB) (hwf : AiWF db)
    (t1 v1 : List Char) (s1 e1 : ℚ) (rt1 resp client : List Char)
    (cp1 : Option (List Char)) (t2 v2 : List Char) (s2 : ℚ) (rt2 : List Char)
    (cp2 : Option (List Char))
    (hne : (sentence_hash t1 v1 s1, rt1, cp1) ≠ (sentence_hash t2 v2 s2, rt2, cp2)) :
    get_ai_response (save_ai_response db t1 v1 s1 e1 rt1 resp client cp1).1 t2 v2 s2 rt2 cp2
      = get_ai_response db t2 v2 s2 rt2 cp2 := by
  obtain ⟨hnd, _, _⟩ := hwf
  cases hfind : db.rows.find? (rowKeyMatch (sentence_hash t1 v1 s1) rt1 cp1) with
  | some r =>
    have hrmem : r ∈ db.rows := List.mem_of_find?_eq_some hfind
    have hrkey : rowFullKey r = (sentence_hash t1 v1 s1, rt1, cp1) :=
      (rowKeyMatch_iff _ _ _ r).mp (List.find?_some hfind)
    unfold get_ai_response
    dsimp only
    simp only [save_ai_response, hfind]
    rw [filter_map_untouched]
    intro x hx
    by_cases hxid : x.id = r.id
    · have hxr : x = r := List.inj_on_of_nodup_map hnd hx hrmem hxid
      subst hxr
      right
      have hpx : rowKeyMatch (sentence_hash t2 v2 s2) rt2 cp2 x = false := by
        cases hp : rowKeyMatch (sentence_hash t2 v2 s2) rt2 cp2 x
        · rfl
        · exact absurd (hrkey ▸ (rowKeyMatch_iff _ _ _ x).mp hp) (by simpa using hne)
      refine ⟨hpx, ?_⟩
      simp only [hxid, if_pos, rowKeyMatch_updRow]
      exact hpx
    · left
      simp [hxid]
  | none =>
    unfold get_ai_response
    dsimp only
    simp only [save_ai_response, hfind]
    rw [List.filter_append]
    have hnil : List.filter (rowKeyMatch (sentence_hash t2 v2 s2) rt2 cp2)
        [newAiRow db.nextId t1 v1 s1 e1 rt1 resp client cp1] = [] := by
      rw [List.filter_eq_nil_iff]
      intro b hb
      simp only [List.mem_singleton] at hb
      subst hb
      intro hp
      have hk := (rowKeyMatch_iff _ _ _ _).mp hp
      simp only [rowFullKey, newAiRow] at hk
      exact hne (by simp_all)
    rw [hnil, List.append_nil]

theorem get_ai_response_after_save_same (db : AiDB) (hwf : AiWF db)
    (t v : List Char) (s e : ℚ) (rt resp client : List Char)
    (cp : Option (List Char)) :
    ∃ r', get_ai_response (save_ai_response db t v s e rt resp client cp).1 t v s rt cp
        = some r' ∧ r'.ai_response = resp ∧ r'.ai_client = client := by
  obtain ⟨hnd, _, hpair⟩ := hwf
  cases hfind : db.rows.find? (rowKeyMatch (sentence_hash t v s) rt cp) with
  | some r =>
    have hrmem : r ∈ db.rows := List.mem_of_find?_eq_some hfind
    have hrkey : rowFullKey r = (sentence_hash t v s, rt, cp) :=
      (rowKeyMatch_iff _ _ _ r).mp (List.find?_some hfind)
    have hpres : ∀ x, rowKeyMatch (sentence_hash t v s) rt cp
        (if x.id = r.id then updRow resp client (r.version + 1) x else x)
        = rowKeyMatch (sentence_hash t v s) rt cp x := by
      intro x
      by_cases hxid : x.id = r.id
      · simp only [hxid, if_pos, rowKeyMatch_updRow]
      · simp [hxid]
    have hfil : db.rows.filter (rowKeyMatch (sentence_hash t v s) rt cp) = [r] := by
      refine filter_eq_singleton_of_pairwise hpair ?_ hrmem
      intro x
      rw [rowKeyMatch_iff, hrkey]
    refine ⟨updRow resp client (r.version + 1) r, ?_, rfl, rfl⟩
    apply get_of_filter_singleton
    show (save_ai_response db t v s e rt resp client cp).1.rows.filter _ = _
    simp only [save_ai_response, hfind]
    rw [filter_map_comm_of_pres hpres, hfil]
    simp
  | none =>
    have hfil : db.rows.filter (rowKeyMatch (sentence_hash t v s) rt cp) = [] := by
      rw [List.filter_eq_nil_iff]
      intro b hb hp
      have := List.find?_eq_none.mp hfind b hb
      simp [hp] at this
    refine ⟨newAiRow db.nextId t v s e rt resp client cp, ?_, rfl, rfl⟩
    apply get_of_filter_singleton
    show (save_ai_response db t v s e rt resp client cp).1.rows.filter _ = _
    simp only [save_ai_response, hfind]
    rw [List.filter_append, hfil, List.nil_append, List.filter_cons]
    simp only [List.filter_nil]
    rw [if_pos]
    rw [rowKeyMatch_iff]
    rfl

theorem update_preserves_other_filter (db : AiDB)
    (t1 v1 : List Char) (s1 : ℚ) (rt1 ed : List Char) (cp1 : Option (List Char))
    (k2 : List Char × List Char × ℚ) (rt2 : List Char) (cp2 : Option (List Char))
    (hne : (sentence_hash t1 v1 s1, rt1, cp1) ≠ (k2, rt2, cp2)) :
    (update_ai_response db t1 v1 s1 rt1 ed cp1).1.rows.filter (rowKeyMatch k2 rt2 cp2)
      = db.rows.filter (rowKeyMatch k2 rt2 cp2) := by
  show (db.rows.map _).filter _ = _
  rw [filter_map_untouched]
  intro x _
  by_cases hm1 : rowKeyMatch (sentence_hash t1 v1 s1) rt1 cp1 x
  · right
    have hk1 : rowFullKey x = (sentence_hash t1 v1 s1, rt1, cp1) :=
      (rowKeyMatch_iff _ _ _ x).mp hm1
    have hpx : rowKeyMatch k2 rt2 cp2 x = false := by
      cases hp : rowKeyMatch k2 rt2 cp2 x
      · rfl
      · exact absurd (hk1 ▸ (rowKeyMatch_iff _ _ _ x).mp hp) (by simp_all)
    refine ⟨hpx, ?_⟩
    simp only [hm1, if_pos, rowKeyMatch_editRow]
    exact hpx
  · left
    simp [hm1]

/-! ## Lemmas about the annotation copier -/
theorem copyForSentence_cases (db : CorpusDB) (target : List Char) (adb : AiDB)
    (es : ESentence) :
    copyForSentence db target adb es = adb
    ∨ ∃ adb1 : AiDB,
        (adb1 = adb ∨ ∃ b c : List Char,
          adb1 = (save_ai_response adb es.s.text target es.s.start_time
            es.s.end_time "translation".data b c none).1)
        ∧ (copyForSentence db target adb es = adb1
           ∨ ∃ b c : List Char,
             copyForSentence db target adb es = (save_ai_response adb1 es.s.text target
               es.s.start_time es.s.end_time "grammar".data b c none).1) := by
  unfold copyForSentence
  by_cases hflag : (es.has_existing_ai && decide (es.ai_responses_count > 0)) = true
  · rw [if_pos hflag]
    cases hsrc : es.existing_ai_source with
    | none => exact Or.inl rfl
    | some src =>
      dsimp only
      cases hfo : find_original_sentence db es.s.text src with
      | none => exact Or.inl rfl
      | some orig =>
        dsimp only
        cases htr : get_ai_response adb orig.text src orig.start_time
            "translation".data none with
        | none =>
          dsimp only
          cases hgr : get_ai_response adb orig.text src orig.start_time
              "grammar".data none with
          | none => exact Or.inl rfl
          | some gr =>
            exact Or.inr ⟨adb, Or.inl rfl,
              Or.inr ⟨gr.ai_response, gr.ai_client, rfl⟩⟩
        | some tr =>
          dsimp only
          cases hgr : get_ai_response ((save_ai_response adb es.s.text target
              es.s.start_time es.s.end_time "translation".data tr.ai_response
              tr.ai_client none).1) orig.text src orig.start_time
              "grammar".data none with
          | none =>
            exact Or.inr ⟨_, Or.inr ⟨tr.ai_response, tr.ai_client, rfl⟩, Or.inl rfl⟩
          | some gr =>
            exact Or.inr ⟨_, Or.inr ⟨tr.ai_response, tr.ai_client, rfl⟩,
              Or.inr ⟨gr.ai_response, gr.ai_client, rfl⟩⟩
  · rw [if_neg hflag]
    exact Or.inl rfl

theorem copyForSentence_wf (db : CorpusDB) (target : List Char) (adb : AiDB)
    (es : ESentence) (hwf : AiWF adb) : AiWF (copyForSentence db target adb es) := by
  rcases copyForSentence_cases db target adb es with h | ⟨adb1, h1, h2⟩
  · rw [h]; exact hwf
  · have hwf1 : AiWF adb1 := by
      rcases h1 with h1 | ⟨b, c, h1⟩
      · rw [h1]; exact hwf
      · rw [h1]; exact save_ai_response_wf _ _ _ _ _ _ _ _ _ hwf
    rcases h2 with h2 | ⟨b, c, h2⟩
    · rw [h2]; exact hwf1
    · rw [h2]; exact save_ai_response_wf _ _ _ _ _ _ _ _ _ hwf1

theorem copyForSentence_preserves (db : CorpusDB) (target : List Char) (adb : AiDB)
    (es : ESentence) (hwf : AiWF adb) (t2 v2 : List Char) (s2 : ℚ) (rt2 : List Char)
    (cp2 : Option (List Char))
    (hk1 : (sentence_hash es.s.text target es.s.start_time, "translation".data,
      (none : Option (List Char))) ≠ (sentence_hash t2 v2 s2, rt2, cp2))
    (hk2 : (sentence_hash es.s.text target es.s.start_time, "grammar".data,
      (none : Option (List Char))) ≠ (sentence_hash t2 v2 s2, rt2, cp2)) :
    get_ai_response (copyForSentence db target adb es) t2 v2 s2 rt2 cp2
      = get_ai_response adb t2 v2 s2 rt2 cp2 := by
  rcases copyForSentence_cases db target adb es with h | ⟨adb1, h1, h2⟩
  · rw [h]
  · have hwf1 : AiWF adb1 := by
      rcases h1 with h1 | ⟨b, c, h1⟩
      · rw [h1]; exact hwf
      · rw [h1]; exact save_ai_response_wf _ _ _ _ _ _ _ _ _ hwf
    have hstep1 : get_ai_response adb1 t2 v2 s2 rt2 cp2
        = get_ai_response adb t2 v2 s2 rt2 cp2 := by
      rcases h1 with h1 | ⟨b, c, h1⟩
      · rw [h1]
      · rw [h1]
        exact get_ai_response_after_save_other adb hwf _ _ _ _ _ _ _ _ _ _ _ _ _ hk1
    rcases h2 with h2 | ⟨b, c, h2⟩
    · rw [h2]; exact hstep1
    · rw [h2]
      rw [get_ai_response_after_save_other adb1 hwf1 _ _ _ _ _ _ _ _ _ _ _ _ _ hk2]
      exact hstep1

theorem keys_ne_of_video {t1 v1 t2 v2 : List Char} {s1 s2 : ℚ} {rt1 rt2 : List Char}
    {cp1 cp2 : Option (List Char)} (h : v1 ≠ v2) :
    (sentence_hash t1 v1 s1, rt1, cp1) ≠ (sentence_hash t2 v2 s2, rt2, cp2) := by
  intro hc
  apply h
  have h2 := congrArg (fun x => x.1.2.1) hc
  simpa [sentence_hash] using h2

theorem keys_ne_of_rt {t1 v1 t2 v2 : List Char} {s1 s2 : ℚ} {rt1 rt2 : List Char}
    {cp1 cp2 : Option (List Char)} (h : rt1 ≠ rt2) :
    (sentence_hash t1 v1 s1, rt1, cp1) ≠ (sentence_hash t2 v2 s2, rt2, cp2) := by
  intro hc
  exact h (congrArg (fun x => x.2.1) hc)

theorem copyFold_preserves (db : CorpusDB) (target : List Char)
    (t2 v2 : List Char) (s2 : ℚ) (rt2 : List Char) (cp2 : Option (List Char)) :
    ∀ (l : List ESentence) (adb : AiDB), AiWF adb →
    (∀ es ∈ l,
      (sentence_hash es.s.text target es.s.start_time, "translation".data,
        (none : Option (List Char))) ≠ (sentence_hash t2 v2 s2, rt2, cp2)
      ∧ (sentence_hash es.s.text target es.s.start_time, "grammar".data,
        (none : Option (List Char))) ≠ (sentence_hash t2 v2 s2, rt2, cp2)) →
    AiWF (l.foldl (copyForSentence db target) adb)
    ∧ get_ai_response (l.foldl (copyForSentence db target) adb) t2 v2 s2 rt2 cp2
        = get_ai_response adb t2 v2 s2 rt2 cp2 := by
  intro l
  induction l with
  | nil => intro adb hwf _; exact ⟨hwf, rfl⟩
  | cons es rest ih =>
    intro adb hwf hall
    have h1 := hall es (by simp)
    have hwf1 := copyForSentence_wf db target adb es hwf
    have hrest := ih (copyForSentence db target adb es) hwf1
      (fun e he => hall e (by simp [he]))
    rw [List.foldl_cons]
    refine ⟨hrest.1, ?_⟩
    rw [hrest.2, copyForSentence_preserves db target adb es hwf _ _ _ _ _ h1.1 h1.2]

theorem copyForSentence_copies (db : CorpusDB) (target : List Char) (adb : AiDB)
    (S : Sentence) (src : List Char) (cnt : ℕ) (hwf : AiWF adb) (hcnt : 0 < cnt)
    (T : Sentence) (tr : AiRow)
    (hfo : find_original_sentence db S.text src = some T)
    (htr : get_ai_response adb T.text src T.start_time "translation".data none = some tr)
    (hsrcne : src ≠ target) :
    AiWF (copyForSentence db target adb ⟨S, true, some src, cnt⟩)
    ∧ (∃ r', get_ai_response (copyForSentence db target adb ⟨S, true, some src, cnt⟩)
          S.text target S.start_time "translation".data none = some r'
        ∧ r'.ai_response = tr.ai_response ∧ r'.ai_client = tr.ai_client)
    ∧ get_ai_response (copyForSentence db target adb ⟨S, true, some src, cnt⟩)
        T.text src T.start_time "translation".data none = some tr := by
  have hflag : ((⟨S, true, some src, cnt⟩ : ESentence).has_existing_ai
      && decide ((⟨S, true, some src, cnt⟩ : ESentence).ai_responses_count > 0)) = true := by
    simp [hcnt]
  have hTneTarget : ∀ (rta : List Char),
      (sentence_hash S.text target S.start_time, rta, (none : Option (List Char)))
        ≠ (sentence_hash T.text src T.start_time, "translation".data, none) :=
    fun rta => keys_ne_of_video (Ne.symm hsrcne)
  unfold copyForSentence
  rw [if_pos hflag]
  dsimp only
  rw [hfo]
  dsimp only
  rw [htr]
  dsimp only
  have hwf1 : AiWF (save_ai_response adb S.text target S.start_time S.end_time
      "translation".data tr.ai_response tr.ai_client none).1 :=
    save_ai_response_wf _ _ _ _ _ _ _ _ _ hwf
  have hS := get_ai_response_after_save_same adb hwf S.text target S.start_time
    S.end_time "translation".data tr.ai_response tr.ai_client none
  have hT1 : get_ai_response (save_ai_response adb S.text target S.start_time
      S.end_time "translation".data tr.ai_response tr.ai_client none).1
      T.text src T.start_time "translation".data none = some tr := by
    rw [get_ai_response_after_save_other adb hwf _ _ _ _ _ _ _ _ _ _ _ _ _
      (hTneTarget "translation".data)]
    exact htr
  cases hgr : get_ai_response (save_ai_response adb S.text target S.start_time
      S.end_time "translation".data tr.ai_response tr.ai_client none).1
      T.text src T.start_time "grammar".data none with
  | none =>
    exact ⟨hwf1, hS, hT1⟩
  | some gr =>
    have hne1 : (sentence_hash S.text target S.start_time, "grammar".data,
        (none : Option (List Char)))
        ≠ (sentence_hash S.text target S.start_time, "translation".data, none) :=
      keys_ne_of_rt (by decide)
    refine ⟨save_ai_response_wf _ _ _ _ _ _ _ _ _ hwf1, ?_, ?_⟩
    · obtain ⟨r', hr', h1, h2⟩ := hS
      refine ⟨r', ?_, h1, h2⟩
      rw [get_ai_response_after_save_other _ hwf1 _ _ _ _ _ _ _ _ _ _ _ _ _ hne1]
      exact hr'
    · rw [get_ai_response_after_save_other _ hwf1 _ _ _ _ _ _ _ _ _ _ _ _ _
        (hTneTarget "grammar".data)]
      exact hT1

/-! ## Lemmas about the corpus index and the extended persistence -/
theorem mapInsertVideo_origin (db : CorpusDB) (v : Video)
    (m : List (List Char × CorpusEntry)) :
    ∀ p ∈ mapInsertVideo db v m, p ∈ m ∨ p.2.video_filename = v.filename := by
  unfold mapInsertVideo
  generalize split_text_simple (get_video_segments db v.id) = l
  induction l generalizing m with
  | nil => intro p hp; exact Or.inl hp
  | cons s rest ih =>
    intro p hp
    rw [List.foldl_cons] at hp
    by_cases hc : ((m.find? fun q => decide (q.1 = normalizeText s.text)).isSome : Prop)
    · rw [if_pos hc] at hp
      exact ih m p hp
    · rw [if_neg hc] at hp
      rcases ih _ p hp with hmem | hfn
      · rcases List.mem_append.mp hmem with hmem | hmem
        · exact Or.inl hmem
        · simp only [List.mem_singleton] at hmem
          subst hmem
          exact Or.inr rfl
      · exact Or.inr hfn

theorem get_existing_sentences_map_origin (db : CorpusDB) :
    ∀ p ∈ get_existing_sentences_map db,
      ∃ v ∈ db.videos, p.2.video_filename = v.filename := by
  unfold get_existing_sentences_map
  have aux : ∀ (vs : List Video) (m : List (List Char × CorpusEntry)),
      ∀ p ∈ vs.foldl (fun m v => mapInsertVideo db v m) m,
        p ∈ m ∨ ∃ v ∈ vs, p.2.video_filename = v.filename := by
    intro vs
    induction vs with
    | nil => intro m p hp; exact Or.inl hp
    | cons v rest ih =>
      intro m p hp
      rw [List.foldl_cons] at hp
      rcases ih _ p hp with hmem | ⟨u, hu, hpu⟩
      · rcases mapInsertVideo_origin db v m p hmem with hmem | hfn
        · exact Or.inl hmem
        · exact Or.inr ⟨v, by simp, hfn⟩
      · exact Or.inr ⟨u, by simp [hu], hpu⟩
  intro p hp
  rcases aux db.videos [] p hp with hmem | h
  · simp at hmem
  · exact h

theorem insertSegsLoop_fields (gid : ℕ) :
    ∀ (segs : List Segment) (i : ℕ) (d : ExtDB),
    (insertSegsLoop gid i d segs).groups = d.groups
    ∧ (insertSegsLoop gid i d segs).frames = d.frames
    ∧ (insertSegsLoop gid i d segs).nextGroupId = d.nextGroupId
    ∧ (insertSegsLoop gid i d segs).nextFrameId = d.nextFrameId := by
  intro segs
  induction segs with
  | nil => intro i d; exact ⟨rfl, rfl, rfl, rfl⟩
  | cons seg rest ih =>
    intro i d
    exact ih (i + 1) _

theorem insertGroupsLoop_spec (analysis : Group → List Char × List Char)
    (video_id : ℕ) (video_filename : List Char) :
    ∀ (gs : List Group) (gi : ℕ) (d : ExtDB),
    (insertGroupsLoop analysis video_id video_filename gi d gs).groups
      = d.groups ++ groupRowsFrom analysis video_id video_filename gi d.nextGroupId gs
    ∧ (insertGroupsLoop analysis video_id video_filename gi d gs).nextGroupId
      = d.nextGroupId + gs.length
    ∧ (insertGroupsLoop analysis video_id video_filename gi d gs).frames = d.frames
    ∧ (insertGroupsLoop analysis video_id video_filename gi d gs).nextFrameId
      = d.nextFrameId := by
  intro gs
  induction gs with
  | nil =>
    intro gi d
    exact ⟨by simp [insertGroupsLoop, groupRowsFrom], rfl, rfl, rfl⟩
  | cons g rest ih =>
    intro gi d
    simp only [insertGroupsLoop]
    obtain ⟨hsg, hsf, hsn, hsfn⟩ := insertSegsLoop_fields
      (mkGroupRow analysis video_id video_filename gi d.nextGroupId g).id
      g.segments 0
      { d with
          groups := d.groups
            ++ [mkGroupRow analysis video_id video_filename gi d.nextGroupId g],
          nextGroupId := d.nextGroupId + 1 }
    obtain ⟨ih1, ih2, ih3, ih4⟩ := ih (gi + 1) (insertSegsLoop
      (mkGroupRow analysis video_id video_filename gi d.nextGroupId g).id 0
      { d with
          groups := d.groups
            ++ [mkGroupRow analysis video_id video_filename gi d.nextGroupId g],
          nextGroupId := d.nextGroupId + 1 } g.segments)
    refine ⟨?_, ?_, ?_, ?_⟩
    · rw [ih1, hsg, hsn, List.append_assoc, List.singleton_append]
      simp only [groupRowsFrom]
    · rw [ih2, hsn]
      simp only [List.length_cons]
      omega
    · rw [ih3, hsf]
    · rw [ih4, hsfn]

theorem groupRowsFrom_length (analysis : Group → List Char × List Char)
    (video_id : ℕ) (video_filename : List Char) :
    ∀ (gs : List Group) (gi nid : ℕ),
    (groupRowsFrom analysis video_id video_filename gi nid gs).length = gs.length := by
  intro gs
  induction gs with
  | nil => intro gi nid; rfl
  | cons g rest ih => intro gi nid; simp [groupRowsFrom, ih]

theorem groupRowsFrom_payload (analysis : Group → List Char × List Char)
    (video_id : ℕ) (video_filename : List Char) :
    ∀ (gs : List Group) (gi nid nid2 : ℕ),
    (groupRowsFrom analysis video_id video_filename gi nid gs).map groupPayload
      = (groupRowsFrom analysis video_id video_filename gi nid2 gs).map groupPayload := by
  intro gs
  induction gs with
  | nil => intro gi nid nid2; rfl
  | cons g rest ih =>
    intro gi nid nid2
    simp only [groupRowsFrom, List.map_cons]
    exact congrArg _ (ih (gi + 1) (nid + 1) (nid2 + 1))

theorem insertFramesLoop_fields (frameAnalysis : List Char → List Char) (video_id : ℕ) :
    ∀ (frames : List FrameData) (d : ExtDB),
    (insertFramesLoop frameAnalysis video_id d frames).groups = d.groups
    ∧ (insertFramesLoop frameAnalysis video_id d frames).nextGroupId = d.nextGroupId
    ∧ (insertFramesLoop frameAnalysis video_id d frames).frames.length
      = d.frames.length + frames.length := by
  intro frames
  induction frames with
  | nil => intro d; exact ⟨rfl, rfl, rfl⟩
  | cons fr rest ih =>
    intro d
    simp only [insertFramesLoop]
    obtain ⟨ih1, ih2, ih3⟩ := ih _
    refine ⟨ih1, ih2, ?_⟩
    rw [ih3]
    simp only [List.length_append, List.length_cons, List.length_nil]
    omega

/-! ## Lemmas about the grouper and the frame extractor -/
theorem create_group_facts {min_group_duration : ℚ} {segs : List Segment} {st : ℚ}
    {g : Group} (h : create_group min_group_duration segs st = some g) :
    min_group_duration ≤ g.group_duration
    ∧ g.group_start_time = st
    ∧ g.group_duration = g.group_end_time - g.group_start_time
    ∧ g.segments = segs := by
  cases segs with
  | nil => simp [create_group] at h
  | cons s0 rest =>
    unfold create_group at h
    dsimp only at h
    by_cases hd : ((s0 :: rest).getLast (List.cons_ne_nil s0 rest)).end_time - st
        < min_group_duration
    · rw [if_pos hd] at h
      simp at h
    · rw [if_neg hd] at h
      have hg := (Option.some.injEq _ _).mp h.symm
      subst hg
      refine ⟨not_lt.mp hd, rfl, ?_, rfl⟩
      simp

theorem gsLoop_eq_runs (silence_threshold min_group_duration : ℚ) :
    ∀ (l : List Segment) (prev c0 : Segment) (curTail : List Segment),
    gsLoop silence_threshold min_group_duration prev (c0 :: curTail) c0.start_time l
      = (silenceRunsLoop silence_threshold prev (c0 :: curTail) l).filterMap
          fun run => create_group min_group_duration run
            ((run.head?.map Segment.start_time).getD 0) := by
  intro l
  induction l with
  | nil =>
    intro prev c0 curTail
    simp only [gsLoop, silenceRunsLoop, List.filterMap_cons, List.filterMap_nil,
      List.head?_cons, Option.map_some', Option.getD_some]
    cases h : create_group min_group_duration (c0 :: curTail) c0.start_time with
    | none => simp
    | some g => simp
  | cons seg rest ih =>
    intro prev c0 curTail
    simp only [gsLoop, silenceRunsLoop]
    by_cases hgap : seg.start_time - prev.end_time ≥ silence_threshold
    · rw [if_pos hgap, if_pos hgap, List.filterMap_cons]
      have hrec := ih seg seg []
      rw [hrec]
      simp only [List.head?_cons, Option.map_some', Option.getD_some]
      cases h : create_group min_group_duration (c0 :: curTail) c0.start_time with
      | none => simp
      | some g => simp
    · rw [if_neg hgap, if_neg hgap]
      have hc : (c0 :: curTail) ++ [seg] = c0 :: (curTail ++ [seg]) := by simp
      rw [hc]
      exact ih seg c0 (curTail ++ [seg])

theorem extract_key_frames_fail_filter {Img : Type} (readFrame : ℤ → Option Img)
    (fps : ℚ) (segments : List Segment) (maxF : ℕ) (bad : ℤ) :
    extract_key_frames (fun m => if m = bad then none else readFrame m) fps segments maxF
      = (extract_key_frames readFrame fps segments maxF).filter
          fun fr => decide (fr.frame_number ≠ bad) := by
  unfold extract_key_frames
  rw [List.filter_flatten, List.map_map]
  refine congrArg _ (map_congr_mem fun p _ => ?_)
  show _ = ((frame_times p.2.start_time (p.2.end_time - p.2.start_time)
      (frames_to_extract maxF (p.2.end_time - p.2.start_time))).enum.filterMap _).filter _
  rw [List.filter_filterMap]
  refine List.filterMap_congr fun q _ => ?_
  dsimp only
  by_cases hb : ratTruncZ (q.2 * fps) = bad
  · rw [hb]
    simp only [if_pos rfl]
    cases readFrame bad with
    | none => rfl
    | some img =>
      show (none : Option (ExtractedFrame Img)) = Option.filter _ (some _)
      simp [Option.filter, hb]
  · rw [if_neg hb]
    cases readFrame (ratTruncZ (q.2 * fps)) with
    | none => rfl
    | some img =>
      show some _ = Option.filter _ (some _)
      simp [Option.filter, hb]

/-- C1 (counterexample): the normalizer is not idempotent. On `"hello . um"`
one pass strips nothing at the boundary but then removes the filler `"um"`,
leaving the trailing `" ."` that a second pass strips. -/
theorem C1_counterexample :
    normalize_sentence_for_comparison "hello . um" = "hello ."
    ∧ normalize_sentence_for_comparison (normalize_sentence_for_comparison "hello . um")
        ≠ normalize_sentence_for_comparison "hello . um" := by
  with_unfolding_all decide

/-- C1 (amended): the normalizer is idempotent on every input whose one-pass
result has no residual boundary punctuation, i.e. whenever stripping
non-word boundary characters from `normalize(x)` changes nothing —
in particular whenever filler removal exposes no new boundary. -/
theorem C1_normalize_idempotent_on_stripped (s : String)
    (h : stripBoundary (normalizeText s.data) = normalizeText s.data) :
    normalize_sentence_for_comparison (normalize_sentence_for_comparison s)
      = normalize_sentence_for_comparison s :=
  congrArg (fun l => (⟨l⟩ : String)) (normalizeText_idem_of_boundary s.data h)

/-- C1 (witness): the amended idempotence at the concrete input
`"Hello there"`. -/
theorem C1_witness :
    stripBoundary (normalizeText "Hello there".data) = normalizeText "Hello there".data
    ∧ normalize_sentence_for_comparison (normalize_sentence_for_comparison "Hello there")
        = normalize_sentence_for_comparison "Hello there" :=
  ⟨by with_unfolding_all decide,
   C1_normalize_idempotent_on_stripped "Hello there" (by with_unfolding_all decide)⟩

/-- C2 (counterexample): on `demoSegDup` the splitter emits two sentences of
equal normalized text; the first (9 stripped characters) is kept by the
dedup pass but then dropped by the `>= 10` length filter, while the second
(which alone would have passed every filter) was already discarded — so
neither survives and the first occurrence is *not* the one kept. -/
theorem C2_counterexample :
    (([demoSegDup].map emitSeg).flatten).map (fun s => normalizeText s.text)
        = ["hi ok".data, "hi ok".data]
    ∧ (pyStrip ((([demoSegDup].map emitSeg).flatten).getD 1 ⟨[], 0, 0, 0⟩).text).length ≥ 10
    ∧ onlyPunct (pyStrip ((([demoSegDup].map emitSeg).flatten).getD 1 ⟨[], 0, 0, 0⟩).text)
        = false
    ∧ split_text_into_sentences [demoSegDup] = [] := by
  with_unfolding_all decide

/-- C2 (amended): the output of `split_text_into_sentences` never contains
two sentences of equal normalized text, and it equals the first-occurrence
filter over the emission order followed by the final length filter (so of
two emissions with equal normalized text the later one is always discarded;
the earlier one survives only if it also passes the length filter). -/
theorem C2_local_dedup (segs : List Segment) :
    ((split_text_into_sentences segs).map fun s => normalizeText s.text).Nodup
    ∧ split_text_into_sentences segs
        = ((dedupSpec [] ((segs.map emitSeg).flatten)).1).filter fun s =>
            decide ((pyStrip s.text).length ≥ 10) && !(onlyPunct (pyStrip s.text)) := by
  refine ⟨?_, split_text_into_sentences_eq segs⟩
  rw [split_text_into_sentences_eq]
  have hnd := (dedupSpec_norm_nodup ((segs.map emitSeg).flatten) []).1
  exact List.Nodup.sublist (List.Sublist.map _ (List.filter_sublist _)) hnd

/-- C5 (counterexample): on `demoSegTriple` (five split parts, segment span
`[0, 10]`) the emitted end times are `[4, 44/5, 10]`; the second sentence's
end `44/5` differs from `segment.start + (segment.end - segment.start) *
((j+1)/total_parts)` for every part position `j` — the code interpolates
from the *previous sentence's end*, not from the segment start. -/
theorem C5_counterexample :
    (emitSeg demoSegTriple).map (fun s => (s.start_time, s.end_time))
        = [(0, 4), (4, 44/5), (44/5, 10)]
    ∧ (reSplit (pyStrip demoSegTriple.text)).length = 5
    ∧ ∀ j : Fin 5, (44 : ℚ)/5
        ≠ demoSegTriple.start_time
          + (demoSegTriple.end_time - demoSegTriple.start_time) * (((j : ℚ) + 1) / 5) := by
  with_unfolding_all decide

/-- C5 (amended): for every segment with `start <= end`, the emitted
sentences chain (each starts at the previous one's end, the first at the
segment start); each end time lies between its start and the segment end;
each end time is either the interpolation `sentence_start + (segment_end -
sentence_start) * ((i+1)/len(parts))` for some part index `i` (clamped to
the segment end) or the segment end itself; and a trailing clause without a
terminal delimiter is emitted with the segment end as its end time. -/
theorem C5_timestamps (seg : Segment) (h : seg.start_time ≤ seg.end_time) :
    (∃ b, chainFrom seg.start_time (emitSeg seg) b)
    ∧ (∀ s ∈ emitSeg seg, s.start_time ≤ s.end_time ∧ s.end_time ≤ seg.end_time)
    ∧ (∀ s ∈ emitSeg seg,
        (∃ j, j < (reSplit (pyStrip seg.text)).length
          ∧ s.end_time = interpEnd seg.end_time s.start_time j
              (reSplit (pyStrip seg.text)).length)
        ∨ s.end_time = seg.end_time)
    ∧ (hasContent (emitSegFull seg).cur = true →
        emitSeg seg = (emitSegFull seg).out
          ++ [⟨pyStrip (emitSegFull seg).cur, (emitSegFull seg).curStart,
              seg.end_time, seg.confidence⟩]) := by
  obtain ⟨h1, h2, h3⟩ := emitSeg_props seg h
  refine ⟨h1, h2, h3, fun hc => ?_⟩
  unfold emitSeg
  dsimp only
  rw [if_pos hc]

/-- C5 (witness): the chain invariant at the concrete segment `demoSeg`. -/
theorem C5_witness :
    demoSeg.start_time ≤ demoSeg.end_time
    ∧ (∃ b, chainFrom demoSeg.start_time (emitSeg demoSeg) b) :=
  ⟨by with_unfolding_all decide,
   (C5_timestamps demoSeg (by with_unfolding_all decide)).1⟩

/-- C8: every scene returned by the grouper meets the minimum duration,
scene duration is exactly last end minus first start, and the grouping is
the silence-run partition passed runwise through `create_group` — a run
whose duration falls short contributes no scene at all (it is dropped, not
merged), the final in-progress run included. -/
theorem C8_min_duration_drop (silence_threshold min_group_duration : ℚ)
    (segments : List Segment) :
    (∀ g ∈ group_segments_by_silence silence_threshold min_group_duration segments,
      min_group_duration ≤ g.group_duration
      ∧ g.group_duration = g.group_end_time - g.group_start_time)
    ∧ group_segments_by_silence silence_threshold min_group_duration segments
        = (silenceRuns silence_threshold segments).filterMap
            fun run => create_group min_group_duration run
              ((run.head?.map Segment.start_time).getD 0) := by
  have heq : group_segments_by_silence silence_threshold min_group_duration segments
      = (silenceRuns silence_threshold segments).filterMap
          fun run => create_group min_group_duration run
            ((run.head?.map Segment.start_time).getD 0) := by
    cases segments with
    | nil => rfl
    | cons s0 rest =>
      exact gsLoop_eq_runs silence_threshold min_group_duration rest s0 s0 []
  refine ⟨?_, heq⟩
  intro g hg
  rw [heq] at hg
  rcases List.mem_filterMap.mp hg with ⟨run, _, hcg⟩
  obtain ⟨ha, _, hc, _⟩ := create_group_facts hcg
  exact ⟨ha, hc⟩

/-- C9: a decoder failure at one frame number only removes the frames at
that number — the extraction with a decoder that fails at `bad` equals the
unfailing extraction filtered to frames whose number is not `bad`; at the
concrete three-timestamp scene `[0, 12]` (frame numbers 3, 6, 9) a failure
forced at 6 still yields the frames at 3 and 9. -/
theorem C9_frame_failure_isolation :
    (∀ (Img : Type) (readFrame : ℤ → Option Img) (fps : ℚ) (segments : List Segment)
      (maxF : ℕ) (bad : ℤ),
      extract_key_frames (fun m => if m = bad then none else readFrame m) fps segments maxF
        = (extract_key_frames readFrame fps segments maxF).filter
            fun fr => decide (fr.frame_number ≠ bad))
    ∧ ((extract_key_frames (fun m => if m = (6 : ℤ) then none else some (0 : ℕ)) 1
          [⟨"abc".data, 0, 12, 1⟩] 3).map fun fr => fr.frame_number) = [3, 9]
    ∧ (extract_key_frames (fun _ : ℤ => some (0 : ℕ)) 1
        [⟨"abc".data, 0, 12, 1⟩] 3).length = 3 := by
  refine ⟨fun Img readFrame fps segments maxF bad =>
    extract_key_frames_fail_filter readFrame fps segments maxF bad, ?_, ?_⟩
  · with_unfolding_all decide
  · with_unfolding_all decide

/-- C6: `save_ai_response` is a version-incrementing upsert. It preserves
well-formedness (in particular at most one row per (fingerprint,
response type, custom prompt)); when a row with the key exists, the table
is rewritten with only that row replaced — body and client overwritten,
version incremented by exactly 1, edit state cleared — no row inserted and
the row's id returned; when none exists, exactly the one fresh row with
version 1 is appended. -/
theorem C6_save_upsert (db : AiDB) (t v : List Char) (st et : ℚ)
    (rt resp client : List Char) (cp : Option (List Char)) (hwf : AiWF db) :
    AiWF (save_ai_response db t v st et rt resp client cp).1
    ∧ (∀ r, db.rows.find? (rowKeyMatch (sentence_hash t v st) rt cp) = some r →
        (save_ai_response db t v st et rt resp client cp).1.rows
          = db.rows.map (fun x => if x.id = r.id
              then updRow resp client (r.version + 1) x else x)
        ∧ (save_ai_response db t v st et rt resp client cp).2 = r.id
        ∧ (save_ai_response db t v st et rt resp client cp).1.nextId = db.nextId)
    ∧ (db.rows.find? (rowKeyMatch (sentence_hash t v st) rt cp) = none →
        (save_ai_response db t v st et rt resp client cp).1.rows
          = db.rows ++ [newAiRow db.nextId t v st et rt resp client cp]
        ∧ (newAiRow db.nextId t v st et rt resp client cp).version = 1) := by
  refine ⟨save_ai_response_wf db t v st et rt resp client cp hwf, ?_, ?_⟩
  · intro r hr
    simp only [save_ai_response, hr]
    refine ⟨?_, ?_, ?_⟩ <;> trivial
  · intro hnone
    simp only [save_ai_response, hnone]
    refine ⟨?_, ?_⟩ <;> trivial

/-- C6 (witness): the upsert invariant at a concrete one-row store. -/
theorem C6_witness :
    AiWF demoAiDB
    ∧ AiWF (save_ai_response demoAiDB "hello".data "v".data 1 2 "translation".data
        "b2".data "c".data none).1 :=
  ⟨by with_unfolding_all decide,
   (C6_save_upsert demoAiDB "hello".data "v".data 1 2 "translation".data "b2".data
      "c".data none (by with_unfolding_all decide)).1⟩

/-- C10: when a state row for the filename exists and its stored hash equals
the current file hash, `save_video_state` rewrites the table touching only
`sentences_extracted` and `last_processed` of that row; every resulting row
keeps its id, filename, path, hash, size, duration, `sentences_with_ai` and
— in particular — `processing_completed` unchanged. -/
theorem C10_state_refresh_frame (fs : FileSys) (now : ℕ) (db : StateDB)
    (video_filename video_path : List Char) (cnt : ℕ) (r : VideoStateRow)
    (hfind : db.rows.find? (fun x => decide (x.video_filename = video_filename)) = some r)
    (hhash : fs.hashOf video_path = r.file_hash) :
    (save_video_state fs now db video_filename video_path cnt).1.rows
      = db.rows.map (fun x => if x.id = r.id
          then { x with sentences_extracted := cnt, last_processed := now } else x)
    ∧ ∀ x ∈ (save_video_state fs now db video_filename video_path cnt).1.rows,
        ∃ y ∈ db.rows, x.id = y.id ∧ x.video_filename = y.video_filename
          ∧ x.video_path = y.video_path ∧ x.file_hash = y.file_hash
          ∧ x.file_size = y.file_size ∧ x.duration = y.duration
          ∧ x.sentences_with_ai = y.sentences_with_ai
          ∧ x.processing_completed = y.processing_completed := by
  have hmain : (save_video_state fs now db video_filename video_path cnt).1.rows
      = db.rows.map (fun x => if x.id = r.id
          then { x with sentences_extracted := cnt, last_processed := now } else x) := by
    simp only [save_video_state, hfind]
    rw [if_neg (fun hne => hne hhash.symm)]
  refine ⟨hmain, ?_⟩
  rw [hmain]
  intro x hx
  rcases List.mem_map.mp hx with ⟨y, hy, hxy⟩
  refine ⟨y, hy, ?_⟩
  subst hxy
  by_cases hid : y.id = r.id
  · rw [if_pos hid]
    exact ⟨rfl, rfl, rfl, rfl, rfl, rfl, rfl, rfl⟩
  · rw [if_neg hid]
    exact ⟨rfl, rfl, rfl, rfl, rfl, rfl, rfl, rfl⟩

/-- C10 (witness): re-saving state for the unchanged file of `demoStateDB`
touches only the two fields (the completed flag survives). -/
theorem C10_witness :
    demoStateDB.rows.find? (fun x => decide (x.video_filename = "v1".data))
        = some demoStateRow
    ∧ demoFS.hashOf "p".data = demoStateRow.file_hash
    ∧ demoStateRow.processing_completed = true
    ∧ (save_video_state demoFS 99 demoStateDB "v1".data "p".data 4).1.rows
        = demoStateDB.rows.map (fun x => if x.id = demoStateRow.id
            then { x with sentences_extracted := 4, last_processed := 99 } else x) :=
  ⟨by with_unfolding_all decide, by with_unfolding_all decide,
   by with_unfolding_all decide,
   (C10_state_refresh_frame demoFS 99 demoStateDB "v1".data "p".data 4 demoStateRow
      (by with_unfolding_all decide) (by with_unfolding_all decide)).1⟩

/-- C4 (counterexample): the corpus map is built from `get_all_videos`,
which selects every video with no completion filter — `demoNotCompleted`'s
only video is not completed, yet its sentence contributes the map's one
entry. -/
theorem C4_counterexample :
    (demoNotCompleted.completedState.all fun p => !p.2) = true
    ∧ (get_existing_sentences_map demoNotCompleted).map
        (fun p => (p.1, p.2.video_filename))
      = [("hello there my good friend".data, "v1".data)] := by
  with_unfolding_all decide

/-- C4 (amended): every corpus-map entry originates from some row of the
`videos` table — completed or not — and the map does not depend on the
completion state at all. -/
theorem C4_corpus_from_all_videos (db : CorpusDB)
    (st2 : List (List Char × Bool)) :
    (∀ p ∈ get_existing_sentences_map db,
      ∃ v ∈ db.videos, p.2.video_filename = v.filename)
    ∧ get_existing_sentences_map ⟨db.videos, db.segmentsOf, st2, db.ai⟩
        = get_existing_sentences_map db :=
  ⟨get_existing_sentences_map_origin db, rfl⟩

/-- C7 (counterexample): `_save_groups_and_frames` only inserts — saving the
same single scene twice (the unchanged-video rerun) leaves two
`segment_groups` rows instead of one, so the persisted scene set is not
idempotent. -/
theorem C7_counterexample :
    (save_groups_and_frames demoAnalysis demoFrameAnalysis demoExt 1 "v1".data
        demoGroups []).groups.length = 1
    ∧ (save_groups_and_frames demoAnalysis demoFrameAnalysis
        (save_groups_and_frames demoAnalysis demoFrameAnalysis demoExt 1 "v1".data
          demoGroups []) 1 "v1".data demoGroups []).groups.length = 2
    ∧ (save_groups_and_frames demoAnalysis demoFrameAnalysis
        (save_groups_and_frames demoAnalysis demoFrameAnalysis demoExt 1 "v1".data
          demoGroups []) 1 "v1".data demoGroups []).groups
      ≠ (save_groups_and_frames demoAnalysis demoFrameAnalysis demoExt 1 "v1".data
          demoGroups []).groups := by
  with_unfolding_all decide

/-- C7 (amended): reprocessing is not idempotent but append-only — a second
run of `_save_groups_and_frames` with the same scenes and frames appends
exactly one more copy of every scene row (equal in every column except the
autoincrement id) and of every frame row; with at least one scene the second
run's `segment_groups` table differs from the first's. -/
theorem C7_reprocessing_appends (analysis : Group → List Char × List Char)
    (frameAnalysis : List Char → List Char) (d : ExtDB) (vid : ℕ) (vfn : List Char)
    (groups : List Group) (frames : List FrameData) :
    (save_groups_and_frames analysis frameAnalysis
        (save_groups_and_frames analysis frameAnalysis d vid vfn groups frames)
        vid vfn groups frames).groups.length
      = (save_groups_and_frames analysis frameAnalysis d vid vfn groups
          frames).groups.length + groups.length
    ∧ (save_groups_and_frames analysis frameAnalysis
        (save_groups_and_frames analysis frameAnalysis d vid vfn groups frames)
        vid vfn groups frames).frames.length
      = (save_groups_and_frames analysis frameAnalysis d vid vfn groups
          frames).frames.length + frames.length
    ∧ (save_groups_and_frames analysis frameAnalysis
        (save_groups_and_frames analysis frameAnalysis d vid vfn groups frames)
        vid vfn groups frames).groups.map groupPayload
      = (save_groups_and_frames analysis frameAnalysis d vid vfn groups
          frames).groups.map groupPayload
        ++ (groupRowsFrom analysis vid vfn 0 0 groups).map groupPayload
    ∧ (groups ≠ [] →
        (save_groups_and_frames analysis frameAnalysis
          (save_groups_and_frames analysis frameAnalysis d vid vfn groups frames)
          vid vfn groups frames).groups
        ≠ (save_groups_and_frames analysis frameAnalysis d vid vfn groups
            frames).groups) := by
  have spec1 := insertGroupsLoop_spec analysis vid vfn groups 0 d
  have fr1 := insertFramesLoop_fields frameAnalysis vid frames
    (insertGroupsLoop analysis vid vfn 0 d groups)
  have spec2 := insertGroupsLoop_spec analysis vid vfn groups 0
    (save_groups_and_frames analysis frameAnalysis d vid vfn groups frames)
  have fr2 := insertFramesLoop_fields frameAnalysis vid frames
    (insertGroupsLoop analysis vid vfn 0
      (save_groups_and_frames analysis frameAnalysis d vid vfn groups frames) groups)
  have hg2 : (save_groups_and_frames analysis frameAnalysis
      (save_groups_and_frames analysis frameAnalysis d vid vfn groups frames)
      vid vfn groups frames).groups
      = (save_groups_and_frames analysis frameAnalysis d vid vfn groups frames).groups
        ++ groupRowsFrom analysis vid vfn 0
            (save_groups_and_frames analysis frameAnalysis d vid vfn groups
              frames).nextGroupId groups := by
    show (insertFramesLoop frameAnalysis vid _ frames).groups = _
    rw [fr2.1, spec2.1]
  refine ⟨?_, ?_, ?_, ?_⟩
  · rw [hg2, List.length_append, groupRowsFrom_length]
  · show (insertFramesLoop frameAnalysis vid _ frames).frames.length = _
    rw [fr2.2.2, spec2.2.2.1]
  · rw [hg2, List.map_append]
    rw [groupRowsFrom_payload analysis vid vfn groups 0
      (save_groups_and_frames analysis frameAnalysis d vid vfn groups
        frames).nextGroupId 0]
  · intro hne heq
    have hlen : (save_groups_and_frames analysis frameAnalysis
        (save_groups_and_frames analysis frameAnalysis d vid vfn groups frames)
        vid vfn groups frames).groups.length
        = (save_groups_and_frames analysis frameAnalysis d vid vfn groups
            frames).groups.length + groups.length := by
      rw [hg2, List.length_append, groupRowsFrom_length]
    rw [heq] at hlen
    have : groups.length = 0 := by omega
    exact hne (List.length_eq_zero.mp this)

theorem dedup_eq_map_enhanceTag (db : CorpusDB) (l : List Sentence) :
    deduplicate_with_existing_sentences db l = l.map (enhanceTag db) := rfl

theorem enhanceTag_s (db : CorpusDB) (s : Sentence) : (enhanceTag db s).s = s := by
  unfold enhanceTag
  cases (get_existing_sentences_map db).find? fun p => decide (p.1 = normalizeText s.text)
    <;> rfl

theorem enhanceTag_of_find (db : CorpusDB) (s : Sentence) (key : List Char)
    (entry : CorpusEntry)
    (h : (get_existing_sentences_map db).find?
      (fun p => decide (p.1 = normalizeText s.text)) = some (key, entry)) :
    enhanceTag db s = ⟨s, true, some entry.video_filename, entry.ai_count⟩ := by
  unfold enhanceTag
  rw [h]

/-- C3 (counterexample): in `demoCorpusDup` a sentence of video `v1` carries
a translation, a new sentence of equal normalized text arrives for `v2` —
yet no copy happens: the corpus map counts annotations only at the *first*
emission's start time, finds 0 there, and the copier skips the sentence. -/
theorem C3_counterexample :
    (∃ T ∈ split_text_simple (get_video_segments demoCorpusDup 1),
        normalizeText T.text = normalizeText "Hello there friend.".data
        ∧ get_ai_response demoCorpusDup.ai T.text "v1".data T.start_time
            "translation".data none ≠ none)
    ∧ demoCorpusDup.completedState = [("v1".data, true)]
    ∧ get_ai_response
        (copy_ai_responses_for_duplicates demoCorpusDup
          (deduplicate_with_existing_sentences demoCorpusDup
            [⟨"Hello there friend.".data, 100, 110, 1⟩]) "v2".data)
        "Hello there friend.".data "v2".data 100 "translation".data none = none := by
  with_unfolding_all decide

/-- C3 (amended): cross-video reuse is a value copy with fresh identity
*when the corpus-map entry of the sentence's normalized text counts at least
one annotation*: if the map lookup for new sentence `S` yields an entry with
a positive count, the entry's source video resolves (via
`_find_original_sentence`) to a sentence `T` carrying a translation row
`tr`, the source differs from the target video, and no later sentence of
the batch shares `S`'s dedup key, then after the copier runs, a translation
row for `(S.text, target, S.start_time)` exists with `tr`'s body and
client; `T`'s own row is still retrievable unchanged; the two rows live
under distinct fingerprints; and editing the copy afterwards leaves the
rows under `T`'s fingerprint untouched. -/
theorem C3_cross_video_reuse (db : CorpusDB) (target : List Char)
    (pre post : List Sentence) (S : Sentence) (key : List Char) (entry : CorpusEntry)
    (T : Sentence) (tr : AiRow)
    (hwf : AiWF db.ai)
    (hm : (get_existing_sentences_map db).find?
        (fun p => decide (p.1 = normalizeText S.text)) = some (key, entry))
    (hcnt : 0 < entry.ai_count)
    (hfo : find_original_sentence db S.text entry.video_filename = some T)
    (htr : get_ai_response db.ai T.text entry.video_filename T.start_time
        "translation".data none = some tr)
    (hv : entry.video_filename ≠ target)
    (hpost : ∀ S2 ∈ post, S2.text ≠ S.text ∨ round2 S2.start_time ≠ round2 S.start_time) :
    (∃ r', get_ai_response
          (copy_ai_responses_for_duplicates db
            (deduplicate_with_existing_sentences db (pre ++ S :: post)) target)
          S.text target S.start_time "translation".data none = some r'
        ∧ r'.ai_response = tr.ai_response ∧ r'.ai_client = tr.ai_client)
    ∧ get_ai_response
        (copy_ai_responses_for_duplicates db
          (deduplicate_with_existing_sentences db (pre ++ S :: post)) target)
        T.text entry.video_filename T.start_time "translation".data none = some tr
    ∧ sentence_hash S.text target S.start_time
        ≠ sentence_hash T.text entry.video_filename T.start_time
    ∧ ∀ edited : List Char,
        ((update_ai_response
          (copy_ai_responses_for_duplicates db
            (deduplicate_with_existing_sentences db (pre ++ S :: post)) target)
          S.text target S.start_time "translation".data edited none).1.rows.filter
            (rowKeyMatch (sentence_hash T.text entry.video_filename T.start_time)
              "translation".data none))
        = ((copy_ai_responses_for_duplicates db
            (deduplicate_with_existing_sentences db (pre ++ S :: post)) target).rows.filter
            (rowKeyMatch (sentence_hash T.text entry.video_filename T.start_time)
              "translation".data none)) := by
  have hunfold : copy_ai_responses_for_duplicates db
      (deduplicate_with_existing_sentences db (pre ++ S :: post)) target
      = (post.map (enhanceTag db)).foldl (copyForSentence db target)
          (copyForSentence db target
            ((pre.map (enhanceTag db)).foldl (copyForSentence db target) db.ai)
            ⟨S, true, some entry.video_filename, entry.ai_count⟩) := by
    rw [dedup_eq_map_enhanceTag]
    unfold copy_ai_responses_for_duplicates
    rw [List.map_append, List.map_cons, List.foldl_append, List.foldl_cons,
      enhanceTag_of_find db S key entry hm]
  obtain ⟨hwfPre, hgetPre⟩ := copyFold_preserves db target T.text entry.video_filename
    T.start_time "translation".data none (pre.map (enhanceTag db)) db.ai hwf
    (fun es _ => ⟨keys_ne_of_video (Ne.symm hv), keys_ne_of_video (Ne.symm hv)⟩)
  have htrPre : get_ai_response
      ((pre.map (enhanceTag db)).foldl (copyForSentence db target) db.ai)
      T.text entry.video_filename T.start_time "translation".data none = some tr := by
    rw [hgetPre]
    exact htr
  obtain ⟨hwfS, ⟨r', hr', hresp, hclient⟩, hTS⟩ := copyForSentence_copies db target
    ((pre.map (enhanceTag db)).foldl (copyForSentence db target) db.ai)
    S entry.video_filename entry.ai_count hwfPre hcnt T tr hfo htrPre hv
  have hallS : ∀ es ∈ post.map (enhanceTag db),
      (sentence_hash es.s.text target es.s.start_time, "translation".data,
        (none : Option (List Char)))
        ≠ (sentence_hash S.text target S.start_time, "translation".data, none)
      ∧ (sentence_hash es.s.text target es.s.start_time, "grammar".data,
        (none : Option (List Char)))
        ≠ (sentence_hash S.text target S.start_time, "translation".data, none) := by
    intro es hes
    rcases List.mem_map.mp hes with ⟨S2, hS2, hfe⟩
    have hs : es.s = S2 := by rw [← hfe, enhanceTag_s]
    refine ⟨?_, keys_ne_of_rt (by decide)⟩
    intro hc
    have h1 : es.s.text = S.text := congrArg (fun x => x.1.1) hc
    have h2 : round2 es.s.start_time = round2 S.start_time := by
      have := congrArg (fun x => x.1.2.2) hc
      simpa [sentence_hash] using this
    rcases hpost S2 hS2 with hne | hne
    · exact hne (by rw [← hs]; exact h1)
    · exact hne (by rw [← hs]; exact h2)
  obtain ⟨hwfPost, hgetPostS⟩ := copyFold_preserves db target S.text target
    S.start_time "translation".data none (post.map (enhanceTag db))
    (copyForSentence db target
      ((pre.map (enhanceTag db)).foldl (copyForSentence db target) db.ai)
      ⟨S, true, some entry.video_filename, entry.ai_count⟩) hwfS hallS
  obtain ⟨_, hgetPostT⟩ := copyFold_preserves db target T.text entry.video_filename
    T.start_time "translation".data none (post.map (enhanceTag db))
    (copyForSentence db target
      ((pre.map (enhanceTag db)).foldl (copyForSentence db target) db.ai)
      ⟨S, true, some entry.video_filename, entry.ai_count⟩) hwfS
    (fun es _ => ⟨keys_ne_of_video (Ne.symm hv), keys_ne_of_video (Ne.symm hv)⟩)
  have hashne : sentence_hash S.text target S.start_time
      ≠ sentence_hash T.text entry.video_filename T.start_time := by
    intro hc
    have := congrArg (fun x => x.2.1) hc
    simp only [sentence_hash] at this
    exact hv this.symm
  refine ⟨⟨r', ?_, hresp, hclient⟩, ?_, hashne, fun edited => ?_⟩
  · rw [hunfold, hgetPostS]
    exact hr'
  · rw [hunfold, hgetPostT]
    exact hTS
  · rw [hunfold]
    exact update_preserves_other_filter _ S.text target S.start_time
      "translation".data edited none
      (sentence_hash T.text entry.video_filename T.start_time) "translation".data none
      (keys_ne_of_video (Ne.symm hv))

/-- C3 (witness): the amended reuse at `demoCorpusReuse` — the translation
of `v1`'s sentence is copied for the matching sentence of `v2`. -/
theorem C3_witness :
    AiWF demoCorpusReuse.ai
    ∧ (get_existing_sentences_map demoCorpusReuse).find?
        (fun p => decide (p.1 = normalizeText "Good morning my friend.".data))
      = some ("good morning my friend".data,
          ⟨"v1".data, 1, "Good morning my friend.".data, 0⟩)
    ∧ (∃ r', get_ai_response
          (copy_ai_responses_for_duplicates demoCorpusReuse
            (deduplicate_with_existing_sentences demoCorpusReuse
              [⟨"Good morning my friend.".data, 50, 55, 1⟩]) "v2".data)
          "Good morning my friend.".data "v2".data 50 "translation".data none = some r'
        ∧ r'.ai_response = "guten morgen".data ∧ r'.ai_client = "llama".data) :=
  ⟨by with_unfolding_all decide, by with_unfolding_all decide,
   (C3_cross_video_reuse demoCorpusReuse "v2".data [] []
      ⟨"Good morning my friend.".data, 50, 55, 1⟩
      "good morning my friend".data ⟨"v1".data, 1, "Good morning my friend.".data, 0⟩
      ⟨"Good morning my friend.".data, 0, (20 : ℚ)/3, 1⟩
      (newAiRow 1 "Good morning my friend.".data "v1".data 0 7 "translation".data
        "guten morgen".data "llama".data none)
      (by with_unfolding_all decide) (by with_unfolding_all decide)
      (by with_unfolding_all decide) (by with_unfolding_all decide)
      (by with_unfolding_all decide) (by with_unfolding_all decide)
      (fun S2 h => absurd h (List.not_mem_nil S2))).1⟩

end Game
